import Mathlib

/-!
Verification of the JSON helper core of the Innergy API examples repository.

The subject is the C++ implementation in `src/C++/work_orders.cpp`:
the `JsonWriter` class (static methods `escape` and `prettyPrint`) and the
marker-counting loop of `outputSuccess`.  Strings are embedded as `List Char`
(the C++ code iterates over bytes; all characters it inspects are ASCII, so
per-character iteration agrees with per-byte iteration on UTF-8 text).

The C++ `prettyPrint` can throw: when its `int indent` counter has been
decremented below zero, `std::string(indent * 2, ' ')` converts the negative
count to a huge `size_t` and the constructor throws `std::length_error`.
The embedding therefore returns `Except Unit (List Char)`, with `spacesOf`
modelling the `std::string(count, ' ')` constructor.
-/

namespace Innergy

/-- Null character, the initial value of `prevChar` (`char prevChar = 0`). -/
def nulChar : Char := Char.ofNat 0

/-! ## JsonWriter::escape -/

/-- Body of the `switch` statement inside `JsonWriter::escape`: the list of
characters appended to `result` for one input character. -/
def escapeChar (c : Char) : List Char :=
  if c = '"' then ['\\', '"']
  else if c = '\\' then ['\\', '\\']
  else if c = '\n' then ['\\', 'n']
  else if c = '\r' then ['\\', 'r']
  else if c = '\t' then ['\\', 't']
  else [c]

/-- The `JsonWriter::escape` loop: starts from an empty `result` and appends
the image of each character in turn. -/
def escape (s : List Char) : List Char :=
  s.foldl (fun result c => result ++ escapeChar c) []

/-! ## JsonWriter::prettyPrint -/

/-- Scanner state of `prettyPrint`, excluding the accumulated `result`
string: the indent counter (a C++ `int`, so it may be driven negative), the
in-string flag and the previous character. -/
structure PPState where
  indent : Int
  inString : Bool
  prevChar : Char
  deriving DecidableEq, Repr

/-- Models the C++ expression `std::string(n, ' ')` where `n` is a signed
`int`: a negative count converts to a `size_t` above `max_size()` and the
constructor throws `std::length_error`. -/
def spacesOf (n : Int) : Except Unit (List Char) :=
  if n < 0 then .error () else .ok (List.replicate n.toNat ' ')

/-- One iteration of the `prettyPrint` loop: given the scanner state and the
current character, the characters appended to `result` during this iteration
together with the updated state (or the exception thrown by a
`std::string(count, ' ')` constructor call). -/
def ppEmit (st : PPState) (c : Char) : Except Unit (List Char × PPState) :=
  let inString := if c = '"' ∧ st.prevChar ≠ '\\' then !st.inString else st.inString
  if !inString then
    if c = '{' ∨ c = '[' then do
      let pad ← spacesOf ((st.indent + 1) * 2)
      pure ([c, '\n'] ++ pad, ⟨st.indent + 1, inString, c⟩)
    else if c = '}' ∨ c = ']' then do
      let pad ← spacesOf ((st.indent - 1) * 2)
      pure (['\n'] ++ pad ++ [c], ⟨st.indent - 1, inString, c⟩)
    else if c = ',' then do
      let pad ← spacesOf (st.indent * 2)
      pure ([c, '\n'] ++ pad, ⟨st.indent, inString, c⟩)
    else if c = ':' then
      pure ([c, ' '], ⟨st.indent, inString, c⟩)
    else if c = ' ' ∨ c = '\n' ∨ c = '\r' ∨ c = '\t' then
      pure ([], ⟨st.indent, inString, c⟩)
    else
      pure ([c], ⟨st.indent, inString, c⟩)
  else
    pure ([c], ⟨st.indent, inString, c⟩)

/-- The `prettyPrint` character loop.  The C++ code appends to a single
`result` string; this embedding returns the concatenation of the chunks
appended by the successive iterations, together with the final state. -/
def ppLoop : List Char → PPState → Except Unit (List Char × PPState)
  | [], st => .ok ([], st)
  | c :: cs, st => do
    let (chunk, st1) ← ppEmit st c
    let (rest, st2) ← ppLoop cs st1
    pure (chunk ++ rest, st2)

/-- Runs `prettyPrint` from the initial state (`indent = 0`,
`inString = false`, `prevChar = 0`), returning output and final state. -/
def prettyRun (json : List Char) : Except Unit (List Char × PPState) :=
  ppLoop json ⟨0, false, nulChar⟩

/-- The value of `result` returned by `JsonWriter::prettyPrint`. -/
def prettyPrint (json : List Char) : Except Unit (List Char) :=
  (prettyRun json).map Prod.fst

/-! ## The marker-counting loop of outputSuccess -/

/-- Models `std::string::find(marker, pos)`: the smallest position `p ≥ pos`
(with `p ≤ text.length`, as `find` also matches an empty needle at the end)
at which `marker` occurs as a substring, or `none` for `npos`. -/
def strFind (text marker : List Char) (pos : Nat) : Option Nat :=
  if pos ≤ text.length then
    if marker.isPrefixOf (text.drop pos) then some pos
    else strFind text marker (pos + 1)
  else none
  termination_by text.length + 1 - pos

/-- The `while ((pos = apiResponse.find(marker, pos)) != npos)` loop of
`outputSuccess`, generalized over the marker as in the spec: each found
occurrence increments `count` and the search resumes one character past the
match start (`pos++`). -/
def countFrom (text marker : List Char) (pos : Nat) : Nat :=
  match h : strFind text marker pos with
  | none => 0
  | some p => countFrom text marker (p + 1) + 1
  termination_by text.length + 1 - pos
  decreasing_by
    have key : ∀ q r, strFind text marker q = some r → q ≤ r ∧ r ≤ text.length := by
      intro q
      induction q using strFind.induct text marker with
      | case1 q hle hpre =>
        intro r hr
        rw [strFind, if_pos hle, if_pos hpre] at hr
        cases hr
        omega
      | case2 q hle hpre ih =>
        intro r hr
        rw [strFind, if_pos hle, if_neg hpre] at hr
        have := ih r hr
        omega
      | case3 q hle =>
        intro r hr
        rw [strFind, if_neg hle] at hr
        cases hr
    have := key pos p h
    omega

/-- The spec's `countOccurrences(text, marker)`: the counting loop started
at position 0. -/
def countOccurrences (text marker : List Char) : Nat :=
  countFrom text marker 0

/-! ## Character classes and scanner abstractions

Helper definitions used to state and prove properties of the scanners
above: the whitespace class that `prettyPrint` drops, the special class of
`escape`, and pure re-runs of the quote-tracking scan of `prettyPrint`. -/

/-- The whitespace characters that `prettyPrint` drops outside strings. -/
def isWs (c : Char) : Bool :=
  decide (c = ' ' ∨ c = '\n' ∨ c = '\r' ∨ c = '\t')

/-- The characters given a dedicated case by the `switch` of `escape`. -/
def isSpec (c : Char) : Prop :=
  c = '"' ∨ c = '\\' ∨ c = '\n' ∨ c = '\r' ∨ c = '\t'

instance (c : Char) : Decidable (isSpec c) := by
  unfold isSpec
  infer_instance

/-- Second character of the two-character image `escape` produces for a
special character. -/
def specCode (c : Char) : Char :=
  if c = '"' then '"'
  else if c = '\\' then '\\'
  else if c = '\n' then 'n'
  else if c = '\r' then 'r'
  else 't'

/-- Absence of backslashes; under this hypothesis the one-character
lookback of `prettyPrint` tracks string literals exactly. -/
def noBackslash (s : List Char) : Prop := '\\' ∉ s

instance (s : List Char) : Decidable (noBackslash s) := by
  unfold noBackslash
  infer_instance

/-- The characters that `prettyPrint`'s scanner processes in its
`!inString` branch, re-run as a pure scan with the same state
(`inString`, `prevChar`); the flag consulted is the one after the toggle,
exactly as in the loop body. -/
def outChars : List Char → Bool → Char → List Char
  | [], _, _ => []
  | c :: cs, inStr, prev =>
    let i := if c = '"' ∧ prev ≠ '\\' then !inStr else inStr
    if i then outChars cs i c else c :: outChars cs i c

/-- Simplified quote-parity scan: the in-string flag after a character
list, when no backslash is present (every quote toggles). -/
def sQuote : List Char → Bool → Bool
  | [], b => b
  | c :: cs, b => sQuote cs (if c = '"' then !b else b)

/-- Simplified outside-characters scan (quote parity only). -/
def sOut : List Char → Bool → List Char
  | [], _ => []
  | c :: cs, b =>
    let i := if c = '"' then !b else b
    if i then sOut cs i else c :: sOut cs i

/-- Depth walk of the indent counter over a character list: brackets move a
single counter up and down; a close at depth zero is the underflow that
makes `prettyPrint` throw.  Non-bracket characters are skipped. -/
def dwalk : List Char → Int → Option Int
  | [], d => some d
  | c :: cs, d =>
    if c = '{' ∨ c = '[' then dwalk cs (d + 1)
    else if c = '}' ∨ c = ']' then
      if 1 ≤ d then dwalk cs (d - 1) else none
    else dwalk cs d

/-- Projection of a `ppLoop` result forgetting the final `prevChar`, which
the remaining computation only consults through `prevChar ≠ backslash`. -/
def ppView (x : List Char × PPState) : List Char × Int × Bool :=
  (x.1, x.2.indent, x.2.inString)

/-- The four bracket characters `prettyPrint` reacts to. -/
def isBracket (c : Char) : Prop :=
  c = '{' ∨ c = '[' ∨ c = '}' ∨ c = ']'

instance (c : Char) : Decidable (isBracket c) := by
  unfold isBracket
  infer_instance

/-- A piece of outside-string text that leaves the quote parity at `false`
and moves the depth walk by `δ` from any starting depth at least `need`. -/
def OutDelta (pre : List Char) (δ : Int) (need : Int) : Prop :=
  sQuote pre false = false ∧
    ∀ d : Int, need ≤ d → dwalk (sOut pre false) d = some (d + δ)

/-- Stack-based bracket matcher: pushes opens, pops matching closes,
skipping every non-bracket character. -/
def brkStack : List Char → List Char → Option (List Char)
  | [], st => some st
  | c :: cs, st =>
    if c = '{' ∨ c = '[' then brkStack cs (c :: st)
    else if c = '}' then
      match st with
      | '{' :: st2 => brkStack cs st2
      | _ => none
    else if c = ']' then
      match st with
      | '[' :: st2 => brkStack cs st2
      | _ => none
    else brkStack cs st

/-- Braces and brackets of `s` are balanced: every close matches the
nearest open of the same kind and none is left open. -/
def balancedBrackets (s : List Char) : Prop := brkStack s [] = some []

instance (s : List Char) : Decidable (balancedBrackets s) := by
  unfold balancedBrackets
  infer_instance

/-! ## Whitespace collapsing (normalization)

Modelled from the spec: "collapsing all whitespace outside strings" and the
corrected escape tracking of section 9 — a boolean "the next character is
escaped" flag, set when a backslash is consumed unescaped and cleared after
the following character.  This pass is also the lexical front end of the
standard JSON parser modelled below (whitespace outside string literals is
insignificant in JSON). -/

/-- Whitespace collapse with state: `inStr` is true inside a string
literal, `esc` is true when the next character is escaped. -/
def stripLoop : List Char → Bool → Bool → List Char
  | [], _, _ => []
  | c :: cs, inStr, esc =>
    if inStr then
      if esc then c :: stripLoop cs true false
      else if c = '\\' then c :: stripLoop cs true true
      else if c = '"' then c :: stripLoop cs false false
      else c :: stripLoop cs true false
    else
      if c = '"' then c :: stripLoop cs true false
      else if isWs c then stripLoop cs false false
      else c :: stripLoop cs false false

/-- Modelled from the spec: collapsing all whitespace outside string
literals, from the initial (outside-string) state. -/
def stripWs (s : List Char) : List Char := stripLoop s false false

/-- Simplified whitespace collapse (quote parity only), equal to
`stripLoop` on backslash-free input. -/
def sStrip : List Char → Bool → List Char
  | [], _ => []
  | c :: cs, b =>
    if b then c :: sStrip cs (if c = '"' then false else true)
    else if c = '"' then c :: sStrip cs true
    else if isWs c then sStrip cs false
    else c :: sStrip cs false

/-! ## A standard JSON parser

Modelled from the spec: the repository contains no JSON parser (the spec's
correctness properties quantify over "a standard JSON parser", an external
collaborator), so one is modelled here from the JSON grammar: a structural
value tree, a string-literal reader handling the standard escapes, the
number grammar, and a recursive-descent parser.  Whitespace outside string
literals is insignificant, which the parser realizes by running `stripWs`
as its lexical front end and parsing the compact remainder.  (Surrogate
pairs in `\uXXXX` escapes are not combined; this has no bearing on the
properties proved here, none of which involve such escapes.) -/

/-- Structural JSON value tree.  Numbers are kept as their lexeme, which
only sharpens structural equality. -/
inductive Json where
  | null : Json
  | bool (b : Bool) : Json
  | num (lexeme : List Char) : Json
  | str (value : List Char) : Json
  | arr (elems : List Json) : Json
  | obj (members : List (List Char × Json)) : Json

/-- Value of one hexadecimal digit. -/
def hexVal (c : Char) : Option Nat :=
  if '0' ≤ c ∧ c ≤ '9' then some (c.toNat - '0'.toNat)
  else if 'a' ≤ c ∧ c ≤ 'f' then some (c.toNat - 'a'.toNat + 10)
  else if 'A' ≤ c ∧ c ≤ 'F' then some (c.toNat - 'A'.toNat + 10)
  else none

/-- Reads the body of a JSON string literal, the opening quote already
consumed: decodes the standard escapes, rejects unescaped control
characters, and returns the decoded value with the input after the closing
quote. -/
def parseStr : List Char → Option (List Char × List Char)
  | [] => none
  | c :: cs =>
    if c = '"' then some ([], cs)
    else if c = '\\' then
      match cs with
      | [] => none
      | e :: cs2 =>
        if e = '"' then (parseStr cs2).map (fun r => ('"' :: r.1, r.2))
        else if e = '\\' then (parseStr cs2).map (fun r => ('\\' :: r.1, r.2))
        else if e = '/' then (parseStr cs2).map (fun r => ('/' :: r.1, r.2))
        else if e = 'b' then (parseStr cs2).map (fun r => ('\x08' :: r.1, r.2))
        else if e = 'f' then (parseStr cs2).map (fun r => ('\x0c' :: r.1, r.2))
        else if e = 'n' then (parseStr cs2).map (fun r => ('\n' :: r.1, r.2))
        else if e = 'r' then (parseStr cs2).map (fun r => ('\r' :: r.1, r.2))
        else if e = 't' then (parseStr cs2).map (fun r => ('\t' :: r.1, r.2))
        else if e = 'u' then
          match cs2 with
          | h1 :: h2 :: h3 :: h4 :: cs3 =>
            match hexVal h1, hexVal h2, hexVal h3, hexVal h4 with
            | some a, some b, some x, some y =>
              (parseStr cs3).map (fun r =>
                (Char.ofNat (((a * 16 + b) * 16 + x) * 16 + y) :: r.1, r.2))
            | _, _, _, _ => none
          | _ => none
        else none
    else if c.toNat < 32 then none
    else (parseStr cs).map (fun r => (c :: r.1, r.2))

/-- Longest digit prefix and the remainder. -/
def takeDigits : List Char → List Char × List Char
  | [] => ([], [])
  | c :: cs =>
    if c.isDigit then
      let r := takeDigits cs
      (c :: r.1, r.2)
    else ([], c :: cs)

/-- Integer part of a JSON number after the optional sign: a single `0` or
a nonzero digit followed by digits. -/
def parseIntDigits : List Char → Option (List Char × List Char)
  | [] => none
  | c :: cs =>
    if c = '0' then some (['0'], cs)
    else if c.isDigit then
      let r := takeDigits cs
      some (c :: r.1, r.2)
    else none

/-- Optional fraction part: a dot followed by at least one digit. -/
def parseFracPart (s : List Char) : Option (List Char × List Char) :=
  match s with
  | '.' :: cs =>
    match takeDigits cs with
    | ([], _) => none
    | (ds, rest) => some ('.' :: ds, rest)
  | _ => some ([], s)

/-- Optional exponent part: `e` or `E`, optional sign, at least one
digit. -/
def parseExpPart (s : List Char) : Option (List Char × List Char) :=
  match s with
  | c :: d :: cs2 =>
    if c = 'e' ∨ c = 'E' then
      if d = '+' ∨ d = '-' then
        match takeDigits cs2 with
        | ([], _) => none
        | (ds, rest) => some (c :: d :: ds, rest)
      else
        match takeDigits (d :: cs2) with
        | ([], _) => none
        | (ds, rest) => some (c :: ds, rest)
    else some ([], s)
  | [c] => if c = 'e' ∨ c = 'E' then none else some ([], s)
  | [] => some ([], [])

/-- Unsigned JSON number: integer part, optional fraction, optional
exponent; returns the lexeme and the remainder. -/
def parseNumBody (s : List Char) : Option (List Char × List Char) :=
  match parseIntDigits s with
  | none => none
  | some (ip, s2) =>
    match parseFracPart s2 with
    | none => none
    | some (fp, s3) =>
      match parseExpPart s3 with
      | none => none
      | some (ep, s4) => some (ip ++ fp ++ ep, s4)

/-- JSON number grammar with the optional leading minus sign. -/
def parseNum : List Char → Option (List Char × List Char)
  | '-' :: cs => (parseNumBody cs).map (fun r => ('-' :: r.1, r.2))
  | s => parseNumBody s

mutual

/-- Recursive-descent parser for one compact JSON value; the fuel only
bounds nesting and every successful parse consumes at least one character
per fuel step, so `length + 1` fuel is always sufficient. -/
def parseVal : Nat → List Char → Option (Json × List Char)
  | 0, _ => none
  | fuel + 1, s =>
    match s with
    | [] => none
    | c :: cs =>
      if c = '"' then (parseStr cs).map (fun r => (Json.str r.1, r.2))
      else if c = '{' then
        match cs with
        | '}' :: rest => some (Json.obj [], rest)
        | _ => (parseMembers fuel cs).map (fun r => (Json.obj r.1, r.2))
      else if c = '[' then
        match cs with
        | ']' :: rest => some (Json.arr [], rest)
        | _ => (parseElems fuel cs).map (fun r => (Json.arr r.1, r.2))
      else if c = 't' then
        match cs with
        | 'r' :: 'u' :: 'e' :: rest => some (Json.bool true, rest)
        | _ => none
      else if c = 'f' then
        match cs with
        | 'a' :: 'l' :: 's' :: 'e' :: rest => some (Json.bool false, rest)
        | _ => none
      else if c = 'n' then
        match cs with
        | 'u' :: 'l' :: 'l' :: rest => some (Json.null, rest)
        | _ => none
      else if c = '-' ∨ c.isDigit then
        (parseNum (c :: cs)).map (fun r => (Json.num r.1, r.2))
      else none

/-- Nonempty member list of a compact JSON object, consuming the closing
brace. -/
def parseMembers : Nat → List Char → Option (List (List Char × Json) × List Char)
  | 0, _ => none
  | fuel + 1, s =>
    match s with
    | '"' :: cs =>
      match parseStr cs with
      | none => none
      | some (k, r1) =>
        match r1 with
        | ':' :: r2 =>
          match parseVal fuel r2 with
          | none => none
          | some (v, r3) =>
            match r3 with
            | ',' :: r4 => (parseMembers fuel r4).map (fun r => ((k, v) :: r.1, r.2))
            | '}' :: r4 => some ([(k, v)], r4)
            | _ => none
        | _ => none
    | _ => none

/-- Nonempty element list of a compact JSON array, consuming the closing
bracket. -/
def parseElems : Nat → List Char → Option (List Json × List Char)
  | 0, _ => none
  | fuel + 1, s =>
    match parseVal fuel s with
    | none => none
    | some (v, r1) =>
      match r1 with
      | ',' :: r2 => (parseElems fuel r2).map (fun r => (v :: r.1, r.2))
      | ']' :: r2 => some ([v], r2)
      | _ => none

end

/-- Modelled from the spec: a standard JSON parser.  Collapses the
insignificant whitespace outside string literals and parses the compact
remainder; accepts iff the whole input is one JSON value. -/
def parseJson (s : List Char) : Option Json :=
  let t := stripWs s
  match parseVal (t.length + 1) t with
  | some (v, []) => some v
  | _ => none

/-! ## Concrete inputs used in counterexamples and witnesses -/

/-- Spec scenario 5: one extra closing brace. -/
def cexUnderflow : List Char := ['{', '}', '}']

/-- Valid compact JSON `["\\","x y"]`: a string ending in an escaped
backslash followed by a string containing a space. -/
def cexParse : List Char :=
  ['[', '"', '\\', '\\', '"', ',', '"', 'x', ' ', 'y', '"', ']']

/-- What `prettyPrint` returns on `cexParse` (the space of `"x y"` is
dropped because the scanner believes it is outside the string). -/
def cexParseOut : List Char :=
  ['[', '\n', ' ', ' ', '"', '\\', '\\', '"', ',', '"', 'x', 'y', '"', ']']

/-- Text whose braces are balanced but sit partly inside a string
literal: `{"}"`. -/
def cexBalanced : List Char := ['{', '"', '}', '"']

/-- Valid JSON `["\\", 2]` with whitespace after the comma. -/
def cexIdem : List Char := ['[', '"', '\\', '\\', '"', ',', ' ', '2', ']']

/-- What `prettyPrint` returns on `cexIdem`: the space survives because
the scanner believes it is inside the string. -/
def cexIdemOut : List Char :=
  ['[', '\n', ' ', ' ', '"', '\\', '\\', '"', ',', ' ', '2', ']']

/-- What `prettyPrint` returns on the whitespace-collapsed form of
`cexIdemOut`: the space after the comma is gone for good. -/
def cexIdemOut2 : List Char :=
  ['[', '\n', ' ', ' ', '"', '\\', '\\', '"', ',', '2', ']']

/-- Spec scenario 3: the string `He said "hi"` followed by a newline. -/
def exHello : List Char :=
  ['H', 'e', ' ', 's', 'a', 'i', 'd', ' ', '"', 'h', 'i', '"', '\n']

/-- Small string exercising a quote and a newline, for the round-trip
witness. -/
def exRound : List Char := ['a', '"', '\n']

/-- Valid compact backslash-free JSON `[1]`. -/
def exValid : List Char := ['[', '1', ']']

/-! # Theorems

First the `escape` family, then the counting loop, then the scanner
simulations behind the `prettyPrint` results. -/

theorem escape_foldl (s : List Char) (acc : List Char) :
    s.foldl (fun r c => r ++ escapeChar c) acc = acc ++ (s.map escapeChar).flatten := by
  induction s generalizing acc with
  | nil => simp
  | cons c s ih => simp [List.foldl_cons, ih, List.append_assoc]

theorem escape_eq_join (s : List Char) : escape s = (s.map escapeChar).flatten := by
  simpa using escape_foldl s []

theorem escape_cons (c : Char) (s : List Char) :
    escape (c :: s) = escapeChar c ++ escape s := by
  simp [escape_eq_join]

theorem escape_append_eq (s t : List Char) :
    escape (s ++ t) = escape s ++ escape t := by
  simp [escape_eq_join]

theorem escapeChar_of_spec {c : Char} (h : isSpec c) :
    escapeChar c = ['\\', specCode c] := by
  rcases h with rfl | rfl | rfl | rfl | rfl <;> rfl

theorem escapeChar_of_nonspec {c : Char} (h : ¬ isSpec c) :
    escapeChar c = [c] := by
  unfold isSpec at h
  push_neg at h
  obtain ⟨h1, h2, h3, h4, h5⟩ := h
  simp [escapeChar, h1, h2, h3, h4, h5]

theorem nonspec_ne_backslash {c : Char} (h : ¬ isSpec c) : c ≠ '\\' := by
  unfold isSpec at h
  push_neg at h
  exact h.2.1

theorem specCode_injective {c d : Char} (hc : isSpec c) (hd : isSpec d) :
    specCode c = specCode d → c = d := by
  rcases hc with rfl | rfl | rfl | rfl | rfl <;>
    rcases hd with rfl | rfl | rfl | rfl | rfl <;> decide

/-- C3: `escape` is the in-order concatenation of independent per-character
images, each given by the spec's table: quote, backslash, newline, carriage
return and tab map to their two-character escapes and every other character
to itself. -/
theorem escape_charwise :
    (∀ s : List Char, escape s = (s.map escapeChar).flatten) ∧
    escapeChar '"' = ['\\', '"'] ∧
    escapeChar '\\' = ['\\', '\\'] ∧
    escapeChar '\n' = ['\\', 'n'] ∧
    escapeChar '\r' = ['\\', 'r'] ∧
    escapeChar '\t' = ['\\', 't'] ∧
    ∀ c : Char, c ≠ '"' → c ≠ '\\' → c ≠ '\n' → c ≠ '\r' → c ≠ '\t' →
      escapeChar c = [c] := by
  refine ⟨escape_eq_join, rfl, rfl, rfl, rfl, rfl, ?_⟩
  intro c h1 h2 h3 h4 h5
  simp [escapeChar, h1, h2, h3, h4, h5]

/-- Witness for C3 on the spec's own scenario 3 input and a plain
character. -/
theorem escape_charwise_witness :
    escape exHello = (exHello.map escapeChar).flatten ∧ escapeChar 'x' = ['x'] :=
  ⟨escape_charwise.1 exHello,
   escape_charwise.2.2.2.2.2.2 'x' (by decide) (by decide) (by decide)
     (by decide) (by decide)⟩

/-- C9: `escape` distributes over concatenation and maps the empty string
to the empty string, so chunks may be escaped independently. -/
theorem escape_append_hom :
    (∀ s t : List Char, escape (s ++ t) = escape s ++ escape t) ∧
    escape [] = [] :=
  ⟨escape_append_eq, rfl⟩

/-- C10: `escape` is injective — distinct inputs have distinct images. -/
theorem escape_injective :
    ∀ s t : List Char, escape s = escape t → s = t := by
  intro s
  induction s with
  | nil =>
    intro t h
    cases t with
    | nil => rfl
    | cons d t =>
      rw [escape_cons] at h
      rcases List.append_eq_nil.mp h.symm with ⟨hd, _⟩
      by_cases hs : isSpec d
      · rw [escapeChar_of_spec hs] at hd
        cases hd
      · rw [escapeChar_of_nonspec hs] at hd
        cases hd
  | cons c s ih =>
    intro t h
    cases t with
    | nil =>
      rw [escape_cons] at h
      rcases List.append_eq_nil.mp h with ⟨hd, _⟩
      by_cases hs : isSpec c
      · rw [escapeChar_of_spec hs] at hd
        cases hd
      · rw [escapeChar_of_nonspec hs] at hd
        cases hd
    | cons d t =>
      rw [escape_cons, escape_cons] at h
      by_cases hc : isSpec c <;> by_cases hd : isSpec d
      · rw [escapeChar_of_spec hc, escapeChar_of_spec hd] at h
        simp only [List.cons_append, List.nil_append, List.cons.injEq] at h
        obtain ⟨-, hcode, htail⟩ := h
        rw [specCode_injective hc hd hcode, ih t htail]
      · rw [escapeChar_of_spec hc, escapeChar_of_nonspec hd] at h
        simp only [List.cons_append, List.nil_append, List.cons.injEq] at h
        exact absurd h.1.symm (nonspec_ne_backslash hd)
      · rw [escapeChar_of_nonspec hc, escapeChar_of_spec hd] at h
        simp only [List.cons_append, List.nil_append, List.cons.injEq] at h
        exact absurd h.1 (nonspec_ne_backslash hc)
      · rw [escapeChar_of_nonspec hc, escapeChar_of_nonspec hd] at h
        simp only [List.cons_append, List.nil_append, List.cons.injEq] at h
        rw [h.1, ih t h.2]

/-- Witness for C10 at a concrete pair of inputs. -/
theorem escape_injective_witness : exRound = exRound :=
  escape_injective exRound exRound rfl

theorem parseStr_quote (rest : List Char) : parseStr ('"' :: rest) = some ([], rest) := by
  rw [parseStr.eq_def]
  simp

theorem parseStr_esc_quote (rest : List Char) :
    parseStr ('\\' :: '"' :: rest) = (parseStr rest).map (fun r => ('"' :: r.1, r.2)) := by
  rw [parseStr.eq_def]
  simp

theorem parseStr_esc_bs (rest : List Char) :
    parseStr ('\\' :: '\\' :: rest) = (parseStr rest).map (fun r => ('\\' :: r.1, r.2)) := by
  rw [parseStr.eq_def]
  simp

theorem parseStr_esc_n (rest : List Char) :
    parseStr ('\\' :: 'n' :: rest) = (parseStr rest).map (fun r => ('\n' :: r.1, r.2)) := by
  rw [parseStr.eq_def]
  simp

theorem parseStr_esc_r (rest : List Char) :
    parseStr ('\\' :: 'r' :: rest) = (parseStr rest).map (fun r => ('\r' :: r.1, r.2)) := by
  rw [parseStr.eq_def]
  simp

theorem parseStr_esc_t (rest : List Char) :
    parseStr ('\\' :: 't' :: rest) = (parseStr rest).map (fun r => ('\t' :: r.1, r.2)) := by
  rw [parseStr.eq_def]
  simp

theorem parseStr_plain {c : Char} (h1 : c ≠ '"') (h2 : c ≠ '\\')
    (h3 : ¬ c.toNat < 32) (rest : List Char) :
    parseStr (c :: rest) = (parseStr rest).map (fun r => (c :: r.1, r.2)) := by
  rw [parseStr.eq_def]
  simp [h1, h2, h3]

/-- C7: for a string made of quotes, backslashes, newlines, carriage
returns, tabs and characters outside the control range, the escaped text
surrounded by double quotes reads back as a JSON string literal whose
decoded value is the original string (`parseStr` is the string-literal
reader of the standard parser, positioned after the opening quote ). -/
theorem escape_roundtrip :
    ∀ s : List Char, (∀ c ∈ s, 32 ≤ c.toNat ∨ c = '\n' ∨ c = '\r' ∨ c = '\t') →
      parseStr (escape s ++ ['"']) = some (s, []) := by
  intro s h
  induction s with
  | nil =>
    rw [show escape [] ++ ['"'] = ['"'] from rfl, parseStr_quote]
  | cons c s ih =>
    have hs : ∀ x ∈ s, 32 ≤ x.toNat ∨ x = '\n' ∨ x = '\r' ∨ x = '\t' :=
      fun x hx => h x (List.mem_cons_of_mem _ hx)
    have hc := h c (List.mem_cons_self c s)
    rw [escape_cons, List.append_assoc]
    by_cases hspec : isSpec c
    · rcases hspec with rfl | rfl | rfl | rfl | rfl
      · rw [show escapeChar '"' = ['\\', '"'] from rfl]
        simp [parseStr_esc_quote, ih hs]
      · rw [show escapeChar '\\' = ['\\', '\\'] from rfl]
        simp [parseStr_esc_bs, ih hs]
      · rw [show escapeChar '\n' = ['\\', 'n'] from rfl]
        simp [parseStr_esc_n, ih hs]
      · rw [show escapeChar '\r' = ['\\', 'r'] from rfl]
        simp [parseStr_esc_r, ih hs]
      · rw [show escapeChar '\t' = ['\\', 't'] from rfl]
        simp [parseStr_esc_t, ih hs]
    · rw [escapeChar_of_nonspec hspec]
      have h32 : 32 ≤ c.toNat := by
        rcases hc with h32 | rfl | rfl | rfl
        · exact h32
        · exact absurd (Or.inr (Or.inr (Or.inl rfl))) hspec
        · exact absurd (Or.inr (Or.inr (Or.inr (Or.inl rfl)))) hspec
        · exact absurd (Or.inr (Or.inr (Or.inr (Or.inr rfl)))) hspec
      unfold isSpec at hspec
      push_neg at hspec
      rw [List.cons_append, parseStr_plain hspec.1 hspec.2.1 (Nat.not_lt.mpr h32)]
      simp [ih hs]

/-- Witness for C7 at a concrete string containing a quote and a
newline. -/
theorem escape_roundtrip_witness :
    (∀ c ∈ exRound, 32 ≤ c.toNat ∨ c = '\n' ∨ c = '\r' ∨ c = '\t') ∧
    parseStr (escape exRound ++ ['"']) = some (exRound, []) :=
  ⟨by decide, escape_roundtrip exRound (by decide)⟩

/-- C2 fails on the code: on the spec's own scenario input `{}}` the
`indent` counter is decremented to `-1` and `std::string(indent * 2, ' ')`
throws, so `prettyPrint` raises instead of returning normally with the
counter clamped at zero. -/
theorem prettyPrint_throws_on_extra_brace :
    prettyPrint cexUnderflow = .error () := by
  rfl

/-! ## The counting loop (C4) -/

theorem strFind_mem {text marker : List Char} {pos p : Nat}
    (h : strFind text marker pos = some p) :
    pos ≤ p ∧ p ≤ text.length ∧ marker.isPrefixOf (text.drop p) ∧
      ∀ q, pos ≤ q → q < p → ¬ marker.isPrefixOf (text.drop q) := by
  induction pos using strFind.induct text marker with
  | case1 pos hle hpre =>
    rw [strFind, if_pos hle, if_pos hpre] at h
    cases h
    exact ⟨Nat.le_refl _, hle, hpre, fun q hq hq2 => absurd hq2 (by omega)⟩
  | case2 pos hle hpre ih =>
    rw [strFind, if_pos hle, if_neg hpre] at h
    obtain ⟨h1, h2, h3, h4⟩ := ih h
    refine ⟨by omega, h2, h3, fun q hq hq2 => ?_⟩
    rcases Nat.eq_or_lt_of_le hq with rfl | hq3
    · exact hpre
    · exact h4 q hq3 hq2
  | case3 pos hle =>
    rw [strFind, if_neg hle] at h
    cases h

theorem strFind_none {text marker : List Char} {pos : Nat}
    (h : strFind text marker pos = none) :
    ∀ q, pos ≤ q → q ≤ text.length → ¬ marker.isPrefixOf (text.drop q) := by
  induction pos using strFind.induct text marker with
  | case1 pos hle hpre =>
    rw [strFind, if_pos hle, if_pos hpre] at h
    cases h
  | case2 pos hle hpre ih =>
    rw [strFind, if_pos hle, if_neg hpre] at h
    intro q hq hq2
    rcases Nat.eq_or_lt_of_le hq with rfl | hq3
    · exact hpre
    · exact ih h q hq3 hq2
  | case3 pos hle =>
    intro q hq hq2
    omega

theorem countFrom_of_none {text marker : List Char} {pos : Nat}
    (h : strFind text marker pos = none) : countFrom text marker pos = 0 := by
  rw [countFrom.eq_def, h]

theorem countFrom_of_some {text marker : List Char} {pos p : Nat}
    (h : strFind text marker pos = some p) :
    countFrom text marker pos = countFrom text marker (p + 1) + 1 := by
  rw [countFrom.eq_def, h]

theorem countFrom_eq_countP (text marker : List Char) (pos : Nat) :
    countFrom text marker pos =
      (List.range' pos (text.length + 1 - pos)).countP
        (fun p => marker.isPrefixOf (text.drop p)) := by
  induction pos using countFrom.induct text marker with
  | case1 pos h =>
    rw [countFrom_of_none h]
    symm
    rw [List.countP_eq_zero]
    intro q hq
    obtain ⟨i, hi, rfl⟩ := List.mem_range'.mp hq
    simpa using strFind_none h (pos + 1 * i) (by omega) (by omega)
  | case2 pos p h ih =>
    rw [countFrom_of_some h]
    obtain ⟨h1, h2, h3, h4⟩ := strFind_mem h
    have hsplit : List.range' pos (text.length + 1 - pos) =
        List.range' pos (p - pos) ++ List.range' p (text.length + 1 - p) := by
      have h5 := List.range'_append_1 pos (p - pos) (text.length + 1 - p)
      rw [show pos + (p - pos) = p from by omega,
        show text.length + 1 - p + (p - pos) = text.length + 1 - pos from by omega] at h5
      exact h5.symm
    rw [hsplit, List.countP_append]
    have hzero : (List.range' pos (p - pos)).countP
        (fun q => marker.isPrefixOf (text.drop q)) = 0 := by
      rw [List.countP_eq_zero]
      intro q hq
      obtain ⟨i, hi, rfl⟩ := List.mem_range'.mp hq
      simpa using h4 (pos + 1 * i) (by omega) (by omega)
    have hstep : text.length + 1 - p = (text.length - p) + 1 := by omega
    rw [hzero, hstep, List.range'_succ, List.countP_cons, ih]
    simp only [h3, if_true]
    have harith : text.length + 1 - (p + 1) = text.length - p := by omega
    rw [harith]
    omega

/-- C4: `countOccurrences(text, marker)` is exactly the number of positions
at which `marker` occurs as a substring of `text` (the position one past
the end included, where only an empty marker can match, exactly as
`std::string::find` behaves). -/
theorem countOccurrences_eq_positions :
    ∀ text marker : List Char,
      countOccurrences text marker =
        (List.range (text.length + 1)).countP
          (fun p => marker.isPrefixOf (text.drop p)) := by
  intro text marker
  rw [countOccurrences, countFrom_eq_countP, List.range_eq_range']
  simp

/-! ## Scanner algebra

Append and character-class laws for the pure scans (`sQuote`, `sOut`,
`dwalk`) used to reason about the `prettyPrint` loop. -/

theorem sQuote_append (a b : List Char) (s : Bool) :
    sQuote (a ++ b) s = sQuote b (sQuote a s) := by
  induction a generalizing s with
  | nil => rfl
  | cons c a ih => simp [sQuote, ih]

theorem sOut_append (a b : List Char) (s : Bool) :
    sOut (a ++ b) s = sOut a s ++ sOut b (sQuote a s) := by
  induction a generalizing s with
  | nil => rfl
  | cons c a ih =>
    by_cases hc : c = '"'
    · subst hc
      cases s <;> simp [sOut, sQuote, ih]
    · cases s <;> simp [sOut, sQuote, hc, ih]

theorem dwalk_append (a b : List Char) (d : Int) :
    dwalk (a ++ b) d = (dwalk a d).bind (fun e => dwalk b e) := by
  induction a generalizing d with
  | nil => rfl
  | cons c a ih =>
    by_cases h1 : c = '{' ∨ c = '['
    · simp [dwalk, h1, ih]
    · by_cases h2 : c = '}' ∨ c = ']'
      · by_cases h3 : (1 : Int) ≤ d <;> simp [dwalk, h1, h2, h3, ih]
      · simp [dwalk, h1, h2, ih]

theorem dwalk_cons_open {c : Char} (hc : c = '{' ∨ c = '[') (l : List Char) (d : Int) :
    dwalk (c :: l) d = dwalk l (d + 1) := by
  rcases hc with rfl | rfl <;> (rw [dwalk.eq_def]; simp)

theorem dwalk_cons_close {c : Char} (hc : c = '}' ∨ c = ']') (l : List Char) (d : Int) :
    dwalk (c :: l) d = if 1 ≤ d then dwalk l (d - 1) else none := by
  rcases hc with rfl | rfl <;> (rw [dwalk.eq_def]; simp)

theorem dwalk_cons_other {c : Char} (hc : ¬ isBracket c) (l : List Char) (d : Int) :
    dwalk (c :: l) d = dwalk l d := by
  unfold isBracket at hc
  push_neg at hc
  rw [dwalk.eq_def]
  simp [hc.1, hc.2.1, hc.2.2.1, hc.2.2.2]

theorem sQuote_cons_quote (l : List Char) (b : Bool) :
    sQuote ('"' :: l) b = sQuote l (!b) := by
  simp [sQuote]

theorem sQuote_cons_other {c : Char} (hc : c ≠ '"') (l : List Char) (b : Bool) :
    sQuote (c :: l) b = sQuote l b := by
  simp [sQuote, hc]

theorem sOut_cons_out {c : Char} (hc : c ≠ '"') (l : List Char) :
    sOut (c :: l) false = c :: sOut l false := by
  simp [sOut, hc]

theorem sOut_cons_in {c : Char} (hc : c ≠ '"') (l : List Char) :
    sOut (c :: l) true = sOut l true := by
  simp [sOut, hc]

theorem sOut_cons_quote_open (l : List Char) :
    sOut ('"' :: l) false = sOut l true := by
  simp [sOut]

theorem sOut_cons_quote_close (l : List Char) :
    sOut ('"' :: l) true = '"' :: sOut l false := by
  simp [sOut]

theorem dwalk_no_bracket {l : List Char} (h : ∀ x ∈ l, ¬ isBracket x) (d : Int) :
    dwalk l d = some d := by
  induction l with
  | nil => rfl
  | cons c l ih =>
    rw [dwalk_cons_other (h c (List.mem_cons_self c l))]
    exact ih (fun x hx => h x (List.mem_cons_of_mem _ hx))

theorem sQuote_no_quote {l : List Char} (h : ∀ x ∈ l, x ≠ '"') (s : Bool) :
    sQuote l s = s := by
  induction l generalizing s with
  | nil => rfl
  | cons c l ih =>
    rw [sQuote_cons_other (h c (List.mem_cons_self c l))]
    exact ih (fun x hx => h x (List.mem_cons_of_mem _ hx)) s

theorem sOut_no_quote_out {l : List Char} (h : ∀ x ∈ l, x ≠ '"') :
    sOut l false = l := by
  induction l with
  | nil => rfl
  | cons c l ih =>
    rw [sOut_cons_out (h c (List.mem_cons_self c l))]
    rw [ih (fun x hx => h x (List.mem_cons_of_mem _ hx))]

theorem sOut_no_quote_in {l : List Char} (h : ∀ x ∈ l, x ≠ '"') :
    sOut l true = [] := by
  induction l with
  | nil => rfl
  | cons c l ih =>
    rw [sOut_cons_in (h c (List.mem_cons_self c l))]
    exact ih (fun x hx => h x (List.mem_cons_of_mem _ hx))

/-! ## OutDelta composition toolkit -/

theorem OutDelta_nil (n : Int) : OutDelta [] 0 n :=
  ⟨rfl, fun d _ => by simp [sOut, dwalk]⟩

theorem OutDelta_mono {l : List Char} {δ n m : Int} (h : n ≤ m)
    (hl : OutDelta l δ n) : OutDelta l δ m :=
  ⟨hl.1, fun d hd => hl.2 d (le_trans h hd)⟩

theorem OutDelta_plain {l : List Char} (h : ∀ x ∈ l, x ≠ '"' ∧ ¬ isBracket x)
    (n : Int) : OutDelta l 0 n := by
  refine ⟨sQuote_no_quote (fun x hx => (h x hx).1) false, fun d _ => ?_⟩
  rw [sOut_no_quote_out (fun x hx => (h x hx).1)]
  rw [dwalk_no_bracket (fun x hx => (h x hx).2)]
  simp

theorem OutDelta_cons {c : Char} {l : List Char} {δ n : Int}
    (h1 : c ≠ '"') (h2 : ¬ isBracket c) (hl : OutDelta l δ n) :
    OutDelta (c :: l) δ n := by
  refine ⟨?_, fun d hd => ?_⟩
  · rw [sQuote_cons_other h1]
    exact hl.1
  · rw [sOut_cons_out h1, dwalk_cons_other h2]
    exact hl.2 d hd

theorem OutDelta_open {c : Char} {l : List Char} {δ n : Int}
    (hc : c = '{' ∨ c = '[') (hl : OutDelta l δ n) :
    OutDelta (c :: l) (δ + 1) (n - 1) := by
  have h1 : c ≠ '"' := by rcases hc with rfl | rfl <;> decide
  refine ⟨?_, fun d hd => ?_⟩
  · rw [sQuote_cons_other h1]
    exact hl.1
  · rw [sOut_cons_out h1, dwalk_cons_open hc]
    rw [hl.2 (d + 1) (by omega)]
    congr 1
    omega

theorem OutDelta_close {c : Char} (hc : c = '}' ∨ c = ']') :
    OutDelta [c] (-1) 1 := by
  have h1 : c ≠ '"' := by rcases hc with rfl | rfl <;> decide
  refine ⟨?_, fun d hd => ?_⟩
  · rw [sQuote_cons_other h1]
    rfl
  · rw [sOut_cons_out h1, dwalk_cons_close hc, if_pos hd]
    rw [show sOut [] false = [] from rfl, show ∀ e : Int, dwalk [] e = some e from fun e => rfl]
    exact congrArg some (by omega)

theorem OutDelta_append0 {a b : List Char} {δ n : Int}
    (ha : OutDelta a 0 n) (hb : OutDelta b δ n) : OutDelta (a ++ b) δ n := by
  refine ⟨?_, fun d hd => ?_⟩
  · rw [sQuote_append, ha.1, hb.1]
  · rw [sOut_append, ha.1, dwalk_append]
    have h1 := ha.2 d hd
    rw [show d + 0 = d from by omega] at h1
    rw [h1]
    exact hb.2 d hd

theorem OutDelta_string {raw : List Char} (h : ∀ x ∈ raw, x ≠ '"') (n : Int) :
    OutDelta ('"' :: (raw ++ ['"'])) 0 n := by
  refine ⟨?_, fun d hd => ?_⟩
  · rw [sQuote_cons_quote, sQuote_append, sQuote_no_quote h]
    rfl
  · rw [sOut_cons_quote_open]
    rw [sOut_append, sOut_no_quote_in h, sQuote_no_quote h]
    rw [show sOut ['"'] true = ['"'] from rfl]
    rw [show ([] : List Char) ++ ['"'] = ['"'] from rfl]
    rw [dwalk_cons_other (by decide)]
    rw [show dwalk [] d = some d from rfl]
    congr 1
    omega

/-! ## Character inventories of the parser pieces -/

theorem noBackslash_suffix {a b : List Char} (h : noBackslash (a ++ b)) :
    noBackslash b :=
  fun hm => h (List.mem_append_right a hm)

theorem noBackslash_tail {c : Char} {cs : List Char} (h : noBackslash (c :: cs)) :
    noBackslash cs :=
  fun hm => h (List.mem_cons_of_mem c hm)

theorem noBackslash_head {c : Char} {cs : List Char} (h : noBackslash (c :: cs)) :
    c ≠ '\\' := by
  intro hc
  exact h (hc ▸ List.mem_cons_self c cs)

theorem parseStr_noBS {cs val rest : List Char} (hb : noBackslash cs)
    (h : parseStr cs = some (val, rest)) :
    cs = val ++ '"' :: rest ∧ ∀ x ∈ val, x ≠ '"' ∧ x ≠ '\\' := by
  induction cs generalizing val with
  | nil =>
    rw [show parseStr [] = none from by rw [parseStr.eq_def]] at h
    cases h
  | cons c cs ih =>
    by_cases hq : c = '"'
    · subst hq
      rw [parseStr_quote] at h
      obtain ⟨rfl, rfl⟩ := Prod.mk.injEq .. ▸ Option.some.inj h
      exact ⟨rfl, by simp⟩
    · have hbs : c ≠ '\\' := noBackslash_head hb
      by_cases h32 : c.toNat < 32
      · rw [parseStr.eq_def] at h
        simp [hq, hbs, h32] at h
      · rw [parseStr_plain hq hbs h32] at h
        rcases hmap : parseStr cs with _ | ⟨v2, r2⟩ <;> rw [hmap] at h
        · cases h
        · obtain ⟨rfl, rfl⟩ := Prod.mk.injEq .. ▸ Option.some.inj h
          obtain ⟨hsplit, hall⟩ := ih (noBackslash_tail hb) hmap
          constructor
          · rw [List.cons_append, ← hsplit]
          · intro x hx
            rcases List.mem_cons.mp hx with rfl | hx2
            · exact ⟨hq, hbs⟩
            · exact hall x hx2

theorem digit_plain {x : Char} (h : x.isDigit = true) :
    x ≠ '"' ∧ ¬ isBracket x := by
  constructor
  · rintro rfl
    exact absurd h (by decide)
  · intro hx
    unfold isBracket at hx
    rcases hx with rfl | rfl | rfl | rfl <;> exact absurd h (by decide)

theorem takeDigits_spec (s : List Char) :
    s = (takeDigits s).1 ++ (takeDigits s).2 ∧
      ∀ x ∈ (takeDigits s).1, x.isDigit = true := by
  induction s with
  | nil => exact ⟨rfl, by simp [takeDigits]⟩
  | cons c cs ih =>
    by_cases hc : c.isDigit
    · simp only [takeDigits, hc, if_true]
      refine ⟨?_, ?_⟩
      · rw [List.cons_append, ← ih.1]
      · intro x hx
        rcases List.mem_cons.mp hx with rfl | hx2
        · exact hc
        · exact ih.2 x hx2
    · simp [takeDigits, hc]

theorem parseIntDigits_spec {s ip r : List Char}
    (h : parseIntDigits s = some (ip, r)) :
    s = ip ++ r ∧ ∀ x ∈ ip, x ≠ '"' ∧ ¬ isBracket x := by
  cases s with
  | nil => cases h
  | cons c cs =>
    by_cases h0 : c = '0'
    · subst h0
      simp only [parseIntDigits, if_true] at h
      obtain ⟨rfl, rfl⟩ := Prod.mk.injEq .. ▸ Option.some.inj h
      exact ⟨rfl, by decide⟩
    · by_cases hd : c.isDigit
      · simp only [parseIntDigits, h0, if_false, hd, if_true] at h
        obtain ⟨rfl, rfl⟩ := Prod.mk.injEq .. ▸ Option.some.inj h
        obtain ⟨hsplit, hall⟩ := takeDigits_spec cs
        refine ⟨by rw [List.cons_append, ← hsplit], ?_⟩
        intro x hx
        rcases List.mem_cons.mp hx with rfl | hx2
        · exact digit_plain hd
        · exact digit_plain (hall x hx2)
      · simp [parseIntDigits, h0, hd] at h

theorem parseFracPart_spec {s fp r : List Char}
    (h : parseFracPart s = some (fp, r)) :
    s = fp ++ r ∧ ∀ x ∈ fp, x ≠ '"' ∧ ¬ isBracket x := by
  unfold parseFracPart at h
  split at h
  · rename_i cs
    rcases htd : takeDigits cs with ⟨ds, rest⟩
    rw [htd] at h
    cases ds with
    | nil => cases h
    | cons d0 ds0 =>
      simp only at h
      obtain ⟨rfl, rfl⟩ := Prod.mk.injEq .. ▸ Option.some.inj h
      obtain ⟨hsplit, hall⟩ := takeDigits_spec cs
      rw [htd] at hsplit hall
      refine ⟨by rw [List.cons_append, ← hsplit], ?_⟩
      intro x hx
      rcases List.mem_cons.mp hx with rfl | hx2
      · exact ⟨by decide, by decide⟩
      · exact digit_plain (hall x hx2)
  · obtain ⟨rfl, rfl⟩ := Prod.mk.injEq .. ▸ Option.some.inj h
    exact ⟨rfl, by simp⟩

theorem parseExpPart_spec {s ep r : List Char}
    (h : parseExpPart s = some (ep, r)) :
    s = ep ++ r ∧ ∀ x ∈ ep, x ≠ '"' ∧ ¬ isBracket x := by
  unfold parseExpPart at h
  split at h
  · rename_i c d cs2
    by_cases hce : c = 'e' ∨ c = 'E'
    · rw [if_pos hce] at h
      have hcp : c ≠ '"' ∧ ¬ isBracket c := by
        rcases hce with rfl | rfl <;> exact ⟨by decide, by decide⟩
      by_cases hsig : d = '+' ∨ d = '-'
      · rw [if_pos hsig] at h
        have hdp : d ≠ '"' ∧ ¬ isBracket d := by
          rcases hsig with rfl | rfl <;> exact ⟨by decide, by decide⟩
        rcases htd : takeDigits cs2 with ⟨ds, rest⟩
        rw [htd] at h
        cases ds with
        | nil => cases h
        | cons d0 ds0 =>
          simp only at h
          obtain ⟨rfl, rfl⟩ := Prod.mk.injEq .. ▸ Option.some.inj h
          obtain ⟨hsplit, hall⟩ := takeDigits_spec cs2
          rw [htd] at hsplit hall
          refine ⟨by rw [List.cons_append, List.cons_append, ← hsplit], ?_⟩
          intro x hx
          rcases List.mem_cons.mp hx with rfl | hx2
          · exact hcp
          · rcases List.mem_cons.mp hx2 with rfl | hx3
            · exact hdp
            · exact digit_plain (hall x hx3)
      · rw [if_neg hsig] at h
        rcases htd : takeDigits (d :: cs2) with ⟨ds, rest⟩
        rw [htd] at h
        cases ds with
        | nil => cases h
        | cons d0 ds0 =>
          simp only at h
          obtain ⟨rfl, rfl⟩ := Prod.mk.injEq .. ▸ Option.some.inj h
          obtain ⟨hsplit, hall⟩ := takeDigits_spec (d :: cs2)
          rw [htd] at hsplit hall
          refine ⟨by rw [List.cons_append, ← hsplit], ?_⟩
          intro x hx
          rcases List.mem_cons.mp hx with rfl | hx2
          · exact hcp
          · exact digit_plain (hall x hx2)
    · rw [if_neg hce] at h
      obtain ⟨rfl, rfl⟩ := Prod.mk.injEq .. ▸ Option.some.inj h
      exact ⟨rfl, by simp⟩
  · rename_i c
    by_cases hce : c = 'e' ∨ c = 'E'
    · rw [if_pos hce] at h
      cases h
    · rw [if_neg hce] at h
      obtain ⟨rfl, rfl⟩ := Prod.mk.injEq .. ▸ Option.some.inj h
      exact ⟨rfl, by simp⟩
  · obtain ⟨rfl, rfl⟩ := Prod.mk.injEq .. ▸ Option.some.inj h
    exact ⟨rfl, by simp⟩

theorem parseNumBody_spec {s lex r : List Char}
    (h : parseNumBody s = some (lex, r)) :
    s = lex ++ r ∧ ∀ x ∈ lex, x ≠ '"' ∧ ¬ isBracket x := by
  unfold parseNumBody at h
  split at h
  · cases h
  rename_i ip s2 hip
  split at h
  · cases h
  rename_i fp s3 hfp
  split at h
  · cases h
  rename_i ep s4 hep
  obtain ⟨rfl, rfl⟩ := Prod.mk.injEq .. ▸ Option.some.inj h
  obtain ⟨e1, a1⟩ := parseIntDigits_spec hip
  obtain ⟨e2, a2⟩ := parseFracPart_spec hfp
  obtain ⟨e3, a3⟩ := parseExpPart_spec hep
  constructor
  · rw [e1, e2, e3]
    simp [List.append_assoc]
  · intro x hx
    rcases List.mem_append.mp hx with hx1 | hx2
    · rcases List.mem_append.mp hx1 with hx3 | hx4
      · exact a1 x hx3
      · exact a2 x hx4
    · exact a3 x hx2

theorem parseNum_spec {s lex r : List Char}
    (h : parseNum s = some (lex, r)) :
    s = lex ++ r ∧ ∀ x ∈ lex, x ≠ '"' ∧ ¬ isBracket x := by
  unfold parseNum at h
  split at h
  · rename_i cs
    rcases hb : parseNumBody cs with _ | ⟨lex2, r2⟩ <;> rw [hb] at h
    · cases h
    · simp only [Option.map_some'] at h
      obtain ⟨rfl, rfl⟩ := Prod.mk.injEq .. ▸ Option.some.inj h
      obtain ⟨e1, a1⟩ := parseNumBody_spec hb
      refine ⟨by rw [List.cons_append, ← e1], ?_⟩
      intro x hx
      rcases List.mem_cons.mp hx with rfl | hx2
      · exact ⟨by decide, by decide⟩
      · exact a1 x hx2
  · exact parseNumBody_spec h

/-! ## Balanced consumption of the parser

Every successful parse of a backslash-free input consumes a prefix whose
outside-string characters move the single indent counter by a known delta
without ever underflowing. -/

theorem parse_balanced (fuel : Nat) :
    (∀ s v rest, noBackslash s → parseVal fuel s = some (v, rest) →
      ∃ pre, s = pre ++ rest ∧ OutDelta pre 0 0) ∧
    (∀ s ms rest, noBackslash s → parseMembers fuel s = some (ms, rest) →
      ∃ pre, s = pre ++ rest ∧ OutDelta pre (-1) 1) ∧
    (∀ s es rest, noBackslash s → parseElems fuel s = some (es, rest) →
      ∃ pre, s = pre ++ rest ∧ OutDelta pre (-1) 1) := by
  induction fuel with
  | zero =>
    refine ⟨?_, ?_, ?_⟩ <;> intro s a rest hb h <;>
      simp only [parseVal, parseMembers, parseElems] at h <;>
      try exact Option.noConfusion h
  | succ fuel ih =>
    obtain ⟨ihV, ihM, ihE⟩ := ih
    refine ⟨?_, ?_, ?_⟩
    · -- parseVal
      intro s v rest hb h
      cases s with
      | nil =>
        simp only [parseVal] at h
        exact Option.noConfusion h
      | cons c cs =>
        simp only [parseVal] at h
        split_ifs at h with hq hbr hbk ht hf hn hnum
        · -- string
          subst hq
          rcases hps : parseStr cs with _ | ⟨val, r1⟩ <;> rw [hps] at h
          · exact Option.noConfusion h
          · simp only [Option.map_some'] at h
            obtain ⟨rfl, rfl⟩ := Prod.mk.injEq .. ▸ Option.some.inj h
            obtain ⟨hsplitS, hcharsS⟩ := parseStr_noBS (noBackslash_tail hb) hps
            refine ⟨'"' :: (val ++ ['"']), ?_, ?_⟩
            · rw [hsplitS]
              simp [List.append_assoc]
            · exact OutDelta_string (fun x hx => (hcharsS x hx).1) 0
        · -- object
          subst hbr
          split at h
          · rename_i rest2
            obtain ⟨rfl, rfl⟩ := Prod.mk.injEq .. ▸ Option.some.inj h
            refine ⟨['{', '}'], rfl, ?_⟩
            have h2 := OutDelta_open (Or.inl rfl) (OutDelta_close (Or.inl rfl))
            rw [show (-1 : Int) + 1 = 0 from by omega,
              show (1 : Int) - 1 = 0 from by omega] at h2
            exact h2
          · rcases hm : parseMembers fuel cs with _ | ⟨ms, rest2⟩ <;> rw [hm] at h
            · exact Option.noConfusion h
            simp only [Option.map_some'] at h
            obtain ⟨rfl, rfl⟩ := Prod.mk.injEq .. ▸ Option.some.inj h
            obtain ⟨pre2, hsplit, hod⟩ := ihM cs ms rest2 (noBackslash_tail hb) hm
            refine ⟨'{' :: pre2, by rw [hsplit]; rfl, ?_⟩
            have h2 := OutDelta_open (Or.inl rfl) hod
            rw [show (-1 : Int) + 1 = 0 from by omega,
              show (1 : Int) - 1 = 0 from by omega] at h2
            exact h2
        · -- array
          subst hbk
          split at h
          · rename_i rest2
            obtain ⟨rfl, rfl⟩ := Prod.mk.injEq .. ▸ Option.some.inj h
            refine ⟨['[', ']'], rfl, ?_⟩
            have h2 := OutDelta_open (Or.inr rfl) (OutDelta_close (Or.inr rfl))
            rw [show (-1 : Int) + 1 = 0 from by omega,
              show (1 : Int) - 1 = 0 from by omega] at h2
            exact h2
          · rcases he : parseElems fuel cs with _ | ⟨es, rest2⟩ <;> rw [he] at h
            · exact Option.noConfusion h
            simp only [Option.map_some'] at h
            obtain ⟨rfl, rfl⟩ := Prod.mk.injEq .. ▸ Option.some.inj h
            obtain ⟨pre2, hsplit, hod⟩ := ihE cs es rest2 (noBackslash_tail hb) he
            refine ⟨'[' :: pre2, by rw [hsplit]; rfl, ?_⟩
            have h2 := OutDelta_open (Or.inr rfl) hod
            rw [show (-1 : Int) + 1 = 0 from by omega,
              show (1 : Int) - 1 = 0 from by omega] at h2
            exact h2
        · -- true
          subst ht
          split at h
          all_goals try exact Option.noConfusion h
          rename_i rest2
          obtain ⟨rfl, rfl⟩ := Prod.mk.injEq .. ▸ Option.some.inj h
          exact ⟨['t', 'r', 'u', 'e'], rfl, OutDelta_plain (by decide) 0⟩
        · -- false
          subst hf
          split at h
          all_goals try exact Option.noConfusion h
          rename_i rest2
          obtain ⟨rfl, rfl⟩ := Prod.mk.injEq .. ▸ Option.some.inj h
          exact ⟨['f', 'a', 'l', 's', 'e'], rfl, OutDelta_plain (by decide) 0⟩
        · -- null
          subst hn
          split at h
          all_goals try exact Option.noConfusion h
          rename_i rest2
          obtain ⟨rfl, rfl⟩ := Prod.mk.injEq .. ▸ Option.some.inj h
          exact ⟨['n', 'u', 'l', 'l'], rfl, OutDelta_plain (by decide) 0⟩
        · -- number
          rcases hnm : parseNum (c :: cs) with _ | ⟨lex, r1⟩ <;> rw [hnm] at h
          · exact Option.noConfusion h
          simp only [Option.map_some'] at h
          obtain ⟨rfl, rfl⟩ := Prod.mk.injEq .. ▸ Option.some.inj h
          obtain ⟨hsplit, hchars⟩ := parseNum_spec hnm
          exact ⟨lex, hsplit, OutDelta_plain hchars 0⟩
    · -- parseMembers
      intro s ms rest hb h
      simp only [parseMembers] at h
      split at h
      · rename_i cs
        split at h
        · exact Option.noConfusion h
        · rename_i k r1 hps
          split at h
          · rename_i r2
            split at h
            · exact Option.noConfusion h
            · rename_i v r3 hpv
              obtain ⟨hsplitS, hcharsS⟩ := parseStr_noBS (noBackslash_tail hb) hps
              have hbcs := noBackslash_tail hb
              have hbr1 : noBackslash (':' :: r2) := by
                rw [hsplitS] at hbcs
                exact noBackslash_tail (noBackslash_suffix hbcs)
              have hbr2 : noBackslash r2 := noBackslash_tail hbr1
              split at h
              · rename_i r4
                rcases hm : parseMembers fuel r4 with _ | ⟨ms2, rest2⟩ <;> rw [hm] at h
                · exact Option.noConfusion h
                simp only [Option.map_some'] at h
                obtain ⟨rfl, rfl⟩ := Prod.mk.injEq .. ▸ Option.some.inj h
                obtain ⟨preV, hsplitV, hodV⟩ := ihV r2 v (',' :: r4) hbr2 hpv
                have hbr4 : noBackslash r4 :=
                  noBackslash_tail (noBackslash_suffix (hsplitV ▸ hbr2))
                obtain ⟨preM, hsplitM, hodM⟩ := ihM r4 ms2 rest2 hbr4 hm
                refine ⟨'"' :: (k ++ ['"']) ++ (':' :: (preV ++ (',' :: preM))), ?_, ?_⟩
                · rw [hsplitS, hsplitV, hsplitM]
                  simp [List.append_assoc]
                · have hM2 : OutDelta (',' :: preM) (-1) 1 :=
                    OutDelta_cons (by decide) (by decide) hodM
                  have hV2 : OutDelta preV 0 1 := OutDelta_mono (by omega) hodV
                  have hVM := OutDelta_append0 hV2 hM2
                  have hC : OutDelta (':' :: (preV ++ (',' :: preM))) (-1) 1 :=
                    OutDelta_cons (by decide) (by decide) hVM
                  have hS : OutDelta ('"' :: (k ++ ['"'])) 0 1 :=
                    OutDelta_string (fun x hx => (hcharsS x hx).1) 1
                  exact OutDelta_append0 hS hC
              · rename_i r4
                obtain ⟨rfl, rfl⟩ := Prod.mk.injEq .. ▸ Option.some.inj h
                obtain ⟨preV, hsplitV, hodV⟩ := ihV r2 v ('}' :: r4) hbr2 hpv
                refine ⟨'"' :: (k ++ ['"']) ++ (':' :: (preV ++ ['}'])), ?_, ?_⟩
                · rw [hsplitS, hsplitV]
                  simp [List.append_assoc]
                · have hM2 : OutDelta ['}'] (-1) 1 := OutDelta_close (Or.inl rfl)
                  have hV2 : OutDelta preV 0 1 := OutDelta_mono (by omega) hodV
                  have hVM := OutDelta_append0 hV2 hM2
                  have hC : OutDelta (':' :: (preV ++ ['}'])) (-1) 1 :=
                    OutDelta_cons (by decide) (by decide) hVM
                  have hS : OutDelta ('"' :: (k ++ ['"'])) 0 1 :=
                    OutDelta_string (fun x hx => (hcharsS x hx).1) 1
                  exact OutDelta_append0 hS hC
              · exact Option.noConfusion h
          · exact Option.noConfusion h
      · exact Option.noConfusion h
    · -- parseElems
      intro s es rest hb h
      simp only [parseElems] at h
      split at h
      · exact Option.noConfusion h
      · rename_i v r1 hpv
        split at h
        · rename_i r2
          rcases he : parseElems fuel r2 with _ | ⟨es2, rest2⟩ <;> rw [he] at h
          · exact Option.noConfusion h
          simp only [Option.map_some'] at h
          obtain ⟨rfl, rfl⟩ := Prod.mk.injEq .. ▸ Option.some.inj h
          obtain ⟨preV, hsplitV, hodV⟩ := ihV s v (',' :: r2) hb hpv
          have hbr2 : noBackslash r2 :=
            noBackslash_tail (noBackslash_suffix (hsplitV ▸ hb))
          obtain ⟨preE, hsplitE, hodE⟩ := ihE r2 es2 rest2 hbr2 he
          refine ⟨preV ++ (',' :: preE), ?_, ?_⟩
          · rw [hsplitV, hsplitE]
            simp [List.append_assoc]
          · have hE2 : OutDelta (',' :: preE) (-1) 1 :=
              OutDelta_cons (by decide) (by decide) hodE
            have hV2 : OutDelta preV 0 1 := OutDelta_mono (by omega) hodV
            exact OutDelta_append0 hV2 hE2
        · rename_i r2
          obtain ⟨rfl, rfl⟩ := Prod.mk.injEq .. ▸ Option.some.inj h
          obtain ⟨preV, hsplitV, hodV⟩ := ihV s v (']' :: r2) hb hpv
          refine ⟨preV ++ [']'], ?_, ?_⟩
          · rw [hsplitV]
            simp [List.append_assoc]
          · have hE2 : OutDelta [']'] (-1) 1 := OutDelta_close (Or.inr rfl)
            have hV2 : OutDelta preV 0 1 := OutDelta_mono (by omega) hodV
            exact OutDelta_append0 hV2 hE2
        · exact Option.noConfusion h

/-! ## Stepping the prettyPrint loop -/

theorem ppEmit_in {c p : Char} {b : Bool} {d : Int}
    (hi : (if c = '"' ∧ p ≠ '\\' then !b else b) = true) :
    ppEmit ⟨d, b, p⟩ c = .ok ([c], ⟨d, true, c⟩) := by
  simp [ppEmit, hi]
  rfl

theorem ppEmit_out_open {c p : Char} {b : Bool} {d : Int}
    (hi : (if c = '"' ∧ p ≠ '\\' then !b else b) = false)
    (hc : c = '{' ∨ c = '[') (hnn : ¬ (d + 1) * 2 < 0) :
    ppEmit ⟨d, b, p⟩ c =
      .ok ([c, '\n'] ++ List.replicate (((d + 1) * 2).toNat) ' ', ⟨d + 1, false, c⟩) := by
  simp [ppEmit, hi, hc, spacesOf, hnn]

theorem ppEmit_out_open_err {c p : Char} {b : Bool} {d : Int}
    (hi : (if c = '"' ∧ p ≠ '\\' then !b else b) = false)
    (hc : c = '{' ∨ c = '[') (hnn : (d + 1) * 2 < 0) :
    ppEmit ⟨d, b, p⟩ c = .error () := by
  simp [ppEmit, hi, hc, spacesOf, hnn]

theorem ppEmit_out_close {c p : Char} {b : Bool} {d : Int}
    (hi : (if c = '"' ∧ p ≠ '\\' then !b else b) = false)
    (hc : c = '}' ∨ c = ']') (hnn : ¬ (d - 1) * 2 < 0) :
    ppEmit ⟨d, b, p⟩ c =
      .ok (['\n'] ++ List.replicate (((d - 1) * 2).toNat) ' ' ++ [c], ⟨d - 1, false, c⟩) := by
  have hnc : ¬ (c = '{' ∨ c = '[') := by
    rcases hc with rfl | rfl <;> decide
  simp [ppEmit, hi, hnc, hc, spacesOf, hnn]

theorem ppEmit_out_close_err {c p : Char} {b : Bool} {d : Int}
    (hi : (if c = '"' ∧ p ≠ '\\' then !b else b) = false)
    (hc : c = '}' ∨ c = ']') (hnn : (d - 1) * 2 < 0) :
    ppEmit ⟨d, b, p⟩ c = .error () := by
  have hnc : ¬ (c = '{' ∨ c = '[') := by
    rcases hc with rfl | rfl <;> decide
  simp [ppEmit, hi, hnc, hc, spacesOf, hnn]

theorem ppEmit_out_comma {p : Char} {b : Bool} {d : Int}
    (hb : b = false) (hnn : ¬ d * 2 < 0) :
    ppEmit ⟨d, b, p⟩ ',' =
      .ok ([',', '\n'] ++ List.replicate ((d * 2).toNat) ' ', ⟨d, false, ','⟩) := by
  subst hb
  simp [ppEmit, spacesOf, hnn]

theorem ppEmit_out_comma_err {p : Char} {b : Bool} {d : Int}
    (hb : b = false) (hnn : d * 2 < 0) :
    ppEmit ⟨d, b, p⟩ ',' = .error () := by
  subst hb
  simp [ppEmit, spacesOf, hnn]

theorem ppEmit_out_colon {p : Char} {b : Bool} {d : Int} (hb : b = false) :
    ppEmit ⟨d, b, p⟩ ':' = .ok ([':', ' '], ⟨d, false, ':'⟩) := by
  subst hb
  simp [ppEmit]
  rfl

theorem ppEmit_out_ws {c p : Char} {b : Bool} {d : Int}
    (hw : isWs c = true) (hb : b = false) :
    ppEmit ⟨d, b, p⟩ c = .ok ([], ⟨d, false, c⟩) := by
  subst hb
  have hw2 : c = ' ' ∨ c = '\n' ∨ c = '\r' ∨ c = '\t' := by
    simpa [isWs] using hw
  have h1 : ¬ (c = '"' ∧ p ≠ '\\') := by
    rcases hw2 with rfl | rfl | rfl | rfl <;> simp
  have h2 : ¬ (c = '{' ∨ c = '[') := by
    rcases hw2 with rfl | rfl | rfl | rfl <;> decide
  have h3 : ¬ (c = '}' ∨ c = ']') := by
    rcases hw2 with rfl | rfl | rfl | rfl <;> decide
  have h4 : c ≠ ',' := by
    rcases hw2 with rfl | rfl | rfl | rfl <;> decide
  have h5 : c ≠ ':' := by
    rcases hw2 with rfl | rfl | rfl | rfl <;> decide
  simp [ppEmit, h1, h2, h3, h4, h5, hw2]
  rfl

theorem ppEmit_out_other {c p : Char} {b : Bool} {d : Int}
    (hi : (if c = '"' ∧ p ≠ '\\' then !b else b) = false)
    (h2 : ¬ (c = '{' ∨ c = '[')) (h3 : ¬ (c = '}' ∨ c = ']'))
    (h4 : c ≠ ',') (h5 : c ≠ ':') (h6 : isWs c = false) :
    ppEmit ⟨d, b, p⟩ c = .ok ([c], ⟨d, false, c⟩) := by
  have hw2 : ¬ (c = ' ' ∨ c = '\n' ∨ c = '\r' ∨ c = '\t') := by
    simpa [isWs] using h6
  simp [ppEmit, hi, h2, h3, h4, h5, hw2]
  rfl

theorem exceptOkBind {A B : Type} (a : A) (f : A → Except Unit B) :
    (Except.ok a >>= f) = f a := rfl

theorem exceptErrBind {A B : Type} (f : A → Except Unit B) :
    ((Except.error () : Except Unit A) >>= f) = Except.error () := rfl

theorem exceptMapOk {A B : Type} (f : A → B) (a : A) :
    f <$> (Except.ok a : Except Unit A) = Except.ok (f a) := rfl

theorem exceptMapErr {A B : Type} (f : A → B) :
    f <$> (Except.error () : Except Unit A) = Except.error () := rfl

theorem ppLoop_cons_ok {st : PPState} {c : Char} {chunk : List Char} {st1 : PPState}
    (he : ppEmit st c = .ok (chunk, st1)) {cs : List Char} {out : List Char}
    {st2 : PPState} (hl : ppLoop cs st1 = .ok (out, st2)) :
    ppLoop (c :: cs) st = .ok (chunk ++ out, st2) := by
  simp only [ppLoop, he, hl, exceptOkBind, exceptErrBind, exceptMapOk, exceptMapErr]
  rfl

theorem ppLoop_cons_err {st : PPState} {c : Char}
    (he : ppEmit st c = .error ()) (cs : List Char) :
    ppLoop (c :: cs) st = .error () := by
  simp only [ppLoop, he, exceptOkBind, exceptErrBind, exceptMapOk, exceptMapErr]

theorem ppLoop_cons_inv {c : Char} {cs : List Char} {st : PPState}
    {out : List Char} {st2 : PPState}
    (h : ppLoop (c :: cs) st = .ok (out, st2)) :
    ∃ chunk st1 rest, ppEmit st c = .ok (chunk, st1) ∧
      ppLoop cs st1 = .ok (rest, st2) ∧ out = chunk ++ rest := by
  rcases he : ppEmit st c with e | ⟨chunk, st1⟩
  · rw [ppLoop_cons_err (by rw [he]) cs] at h
    cases h
  · rcases hl : ppLoop cs st1 with e | ⟨rest, st3⟩
    · cases e
      simp only [ppLoop, he, hl, exceptOkBind, exceptErrBind, exceptMapOk, exceptMapErr] at h
      cases h
    · rw [ppLoop_cons_ok he hl] at h
      obtain ⟨rfl, rfl⟩ := Prod.mk.injEq .. ▸ Except.ok.inj h
      exact ⟨chunk, st1, rest, rfl, hl, rfl⟩


theorem outChars_cons_in {c p : Char} {b : Bool} {cs : List Char}
    (hi : (if c = '"' ∧ p ≠ '\\' then !b else b) = true) :
    outChars (c :: cs) b p = outChars cs true c := by
  simp [outChars, hi]

theorem outChars_cons_out {c p : Char} {b : Bool} {cs : List Char}
    (hi : (if c = '"' ∧ p ≠ '\\' then !b else b) = false) :
    outChars (c :: cs) b p = c :: outChars cs false c := by
  simp [outChars, hi]

/-- The `prettyPrint` loop returns normally with final indent `e` whenever
the depth walk of its outside-string characters does not underflow, and
the final indent is exactly the end of the walk. -/
theorem ppLoop_ok_of_dwalk :
    ∀ (cs : List Char) (b : Bool) (p : Char) (d e : Int), 0 ≤ d →
      dwalk (outChars cs b p) d = some e →
      ∃ out q r, ppLoop cs ⟨d, b, p⟩ = .ok (out, ⟨e, q, r⟩) := by
  intro cs
  induction cs with
  | nil =>
    intro b p d e hd hw
    cases Option.some.inj hw
    exact ⟨[], b, p, rfl⟩
  | cons c cs ih =>
    intro b p d e hd hw
    by_cases hi : (if c = '"' ∧ p ≠ '\\' then !b else b) = true
    · rw [outChars_cons_in hi] at hw
      obtain ⟨out, q, r, hl⟩ := ih true c d e hd hw
      exact ⟨[c] ++ out, q, r, ppLoop_cons_ok (ppEmit_in hi) hl⟩
    · have hi2 : (if c = '"' ∧ p ≠ '\\' then !b else b) = false :=
        Bool.not_eq_true _ ▸ hi
      rw [outChars_cons_out hi2] at hw
      by_cases hop : c = '{' ∨ c = '['
      · rw [dwalk_cons_open hop] at hw
        obtain ⟨out, q, r, hl⟩ := ih false c (d + 1) e (by omega) hw
        exact ⟨_, q, r, ppLoop_cons_ok (ppEmit_out_open hi2 hop (by omega)) hl⟩
      · by_cases hcl : c = '}' ∨ c = ']'
        · rw [dwalk_cons_close hcl] at hw
          by_cases hd1 : (1 : Int) ≤ d
          · rw [if_pos hd1] at hw
            obtain ⟨out, q, r, hl⟩ := ih false c (d - 1) e (by omega) hw
            exact ⟨_, q, r, ppLoop_cons_ok (ppEmit_out_close hi2 hcl (by omega)) hl⟩
          · rw [if_neg hd1] at hw
            cases hw
        · have hnb : ¬ isBracket c := fun hx => by
            rcases hx with hx | hx | hx | hx
            · exact hop (Or.inl hx)
            · exact hop (Or.inr hx)
            · exact hcl (Or.inl hx)
            · exact hcl (Or.inr hx)
          rw [dwalk_cons_other hnb] at hw
          have hbf : b = false ∨ (c = '"' ∧ b = true) := by
            by_cases hq : c = '"' ∧ p ≠ '\\'
            · rw [if_pos hq] at hi2
              exact Or.inr ⟨hq.1, by simpa using hi2⟩
            · rw [if_neg hq] at hi2
              exact Or.inl hi2
          by_cases hcm : c = ','
          · subst hcm
            have hb : b = false := by
              rcases hbf with hb | ⟨hq, -⟩
              · exact hb
              · cases hq
            obtain ⟨out, q, r, hl⟩ := ih false ',' d e hd hw
            exact ⟨_, q, r, ppLoop_cons_ok (ppEmit_out_comma hb (by omega)) hl⟩
          · by_cases hco : c = ':'
            · subst hco
              have hb : b = false := by
                rcases hbf with hb | ⟨hq, -⟩
                · exact hb
                · cases hq
              obtain ⟨out, q, r, hl⟩ := ih false ':' d e hd hw
              exact ⟨_, q, r, ppLoop_cons_ok (ppEmit_out_colon hb) hl⟩
            · by_cases hws : isWs c = true
              · have hb : b = false := by
                  rcases hbf with hb | ⟨hq, -⟩
                  · exact hb
                  · subst hq
                    simp [isWs] at hws
                obtain ⟨out, q, r, hl⟩ := ih false c d e hd hw
                exact ⟨_, q, r, ppLoop_cons_ok (ppEmit_out_ws hws hb) hl⟩
              · have hws2 : isWs c = false := Bool.not_eq_true _ ▸ hws
                obtain ⟨out, q, r, hl⟩ := ih false c d e hd hw
                exact ⟨_, q, r,
                  ppLoop_cons_ok (ppEmit_out_other hi2 hop hcl hcm hco hws2) hl⟩

/-! ## Backslash-free bridges between the scanners -/

/-- On backslash-free input, the `prettyPrint` scanner (one-character
lookback) coincides with plain quote-parity scanning. -/
theorem outChars_eq_sOut :
    ∀ cs : List Char, noBackslash cs → ∀ p, p ≠ '\\' → ∀ b,
      outChars cs b p = sOut cs b := by
  intro cs
  induction cs with
  | nil => intro _ p _ b; rfl
  | cons c cs ih =>
    intro hb p hp b
    have hc : c ≠ '\\' := noBackslash_head hb
    by_cases hq : c = '"'
    · subst hq
      simp only [outChars, sOut, hp, ne_eq, not_false_iff, and_true, if_true]
      rcases hbv : (!b) with _ | _ <;>
        rw [ih (noBackslash_tail hb) '"' (by decide)]
    · simp only [outChars, sOut, hq, false_and, if_false]
      rw [ih (noBackslash_tail hb) c hc]

/-- On backslash-free input, the corrected whitespace collapse coincides
with plain quote-parity collapse. -/
theorem stripLoop_eq_sStrip :
    ∀ cs : List Char, noBackslash cs → ∀ b, stripLoop cs b false = sStrip cs b := by
  intro cs
  induction cs with
  | nil => intro _ b; rfl
  | cons c cs ih =>
    intro hb b
    have hc : c ≠ '\\' := noBackslash_head hb
    have iht := ih (noBackslash_tail hb)
    cases b with
    | true =>
      by_cases hq : c = '"'
      · subst hq
        simp [stripLoop, sStrip, iht]
      · simp [stripLoop, sStrip, hc, hq, iht]
    | false =>
      by_cases hq : c = '"'
      · subst hq
        simp [stripLoop, sStrip, iht]
      · by_cases hw : isWs c
        · simp [stripLoop, sStrip, hq, hw, iht]
        · simp [stripLoop, sStrip, hq, hw, iht]

theorem stripWs_eq_sStrip {s : List Char} (hb : noBackslash s) :
    stripWs s = sStrip s false :=
  stripLoop_eq_sStrip s hb false

theorem sStrip_subset : ∀ (cs : List Char) (b : Bool) (x : Char),
    x ∈ sStrip cs b → x ∈ cs := by
  intro cs
  induction cs with
  | nil => intro b x hx; cases hx
  | cons c cs ih =>
    intro b x hx
    cases b with
    | true =>
      simp only [sStrip] at hx
      rcases List.mem_cons.mp hx with rfl | hx2
      · exact List.mem_cons_self _ _
      · exact List.mem_cons_of_mem c (ih _ x hx2)
    | false =>
      by_cases hq : c = '"'
      · subst hq
        simp only [sStrip, if_true, if_false] at hx
        rcases List.mem_cons.mp hx with rfl | hx2
        · exact List.mem_cons_self _ _
        · exact List.mem_cons_of_mem _ (ih _ x hx2)
      · by_cases hw : isWs c = true
        · simp only [sStrip, hq, hw, if_true, if_false] at hx
          exact List.mem_cons_of_mem c (ih _ x hx)
        · simp only [sStrip, hq, hw, if_false] at hx
          rcases List.mem_cons.mp hx with rfl | hx2
          · exact List.mem_cons_self _ _
          · exact List.mem_cons_of_mem _ (ih _ x hx2)

theorem noBackslash_sStrip {s : List Char} (hb : noBackslash s) (b : Bool) :
    noBackslash (sStrip s b) :=
  fun hm => hb (sStrip_subset s b '\\' hm)

theorem sStrip_cons_in_quote (cs : List Char) :
    sStrip ('"' :: cs) true = '"' :: sStrip cs false := by
  simp [sStrip]

theorem sStrip_cons_in_other {c : Char} (hq : c ≠ '"') (cs : List Char) :
    sStrip (c :: cs) true = c :: sStrip cs true := by
  simp [sStrip, hq]

theorem sStrip_cons_quote (cs : List Char) :
    sStrip ('"' :: cs) false = '"' :: sStrip cs true := by
  simp [sStrip]

theorem sStrip_cons_ws {c : Char} (hq : c ≠ '"') (hw : isWs c = true)
    (cs : List Char) : sStrip (c :: cs) false = sStrip cs false := by
  simp [sStrip, hq, hw]

theorem sStrip_cons_other {c : Char} (hq : c ≠ '"') (hw : isWs c = false)
    (cs : List Char) : sStrip (c :: cs) false = c :: sStrip cs false := by
  simp [sStrip, hq, hw]

/-- Collapsing outside-string whitespace filters exactly the whitespace
out of the outside-character scan. -/
theorem sOut_sStrip :
    ∀ (cs : List Char) (b : Bool),
      sOut (sStrip cs b) b = (sOut cs b).filter (fun c => !isWs c) := by
  intro cs
  induction cs with
  | nil => intro b; rfl
  | cons c cs ih =>
    intro b
    cases b with
    | true =>
      by_cases hq : c = '"'
      · subst hq
        rw [sStrip_cons_in_quote]
        rw [sOut_cons_quote_close, sOut_cons_quote_close]
        rw [List.filter_cons_of_pos (by decide)]
        rw [ih false]
      · rw [sStrip_cons_in_other hq]
        rw [sOut_cons_in hq, sOut_cons_in hq, ih true]
    | false =>
      by_cases hq : c = '"'
      · subst hq
        rw [sStrip_cons_quote, sOut_cons_quote_open, sOut_cons_quote_open, ih true]
      · by_cases hw : isWs c = true
        · rw [sStrip_cons_ws hq hw, ih false, sOut_cons_out hq]
          rw [List.filter_cons_of_neg (by simp [hw])]
        · have hw2 : isWs c = false := Bool.not_eq_true _ ▸ hw
          rw [sStrip_cons_other hq hw2, sOut_cons_out hq, sOut_cons_out hq, ih false]
          rw [List.filter_cons_of_pos (by simp [hw2])]

theorem dwalk_filter {p : Char → Bool}
    (hp : ∀ x, p x = false → ¬ isBracket x) :
    ∀ (l : List Char) (d : Int), dwalk (l.filter p) d = dwalk l d := by
  intro l
  induction l with
  | nil => intro d; rfl
  | cons c l ih =>
    intro d
    rcases hpc : p c with _ | _
    · rw [List.filter_cons_of_neg (by simp [hpc])]
      rw [dwalk_cons_other (hp c hpc), ih]
    · rw [List.filter_cons_of_pos hpc]
      by_cases hop : c = '{' ∨ c = '['
      · rw [dwalk_cons_open hop, dwalk_cons_open hop, ih]
      · by_cases hcl : c = '}' ∨ c = ']'
        · rw [dwalk_cons_close hcl, dwalk_cons_close hcl]
          by_cases hd1 : (1 : Int) ≤ d
          · rw [if_pos hd1, if_pos hd1, ih]
          · rw [if_neg hd1, if_neg hd1]
        · have hnb : ¬ isBracket c := fun hx => by
            rcases hx with hx | hx | hx | hx
            · exact hop (Or.inl hx)
            · exact hop (Or.inr hx)
            · exact hcl (Or.inl hx)
            · exact hcl (Or.inr hx)
          rw [dwalk_cons_other hnb, dwalk_cons_other hnb, ih]

/-- For backslash-free text accepted by the JSON parser, the `prettyPrint`
loop returns normally and its indent counter finishes at zero. -/
theorem prettyRun_ok_of_valid {J : List Char} {v : Json}
    (hb : noBackslash J) (hj : parseJson J = some v) :
    ∃ out q r, prettyRun J = .ok (out, ⟨0, q, r⟩) := by
  rw [show parseJson J =
      (match parseVal ((stripWs J).length + 1) (stripWs J) with
        | some (v, []) => some v
        | _ => none) from rfl] at hj
  split at hj
  · rename_i v2 hpv
    have hbs : noBackslash (stripWs J) := by
      rw [stripWs_eq_sStrip hb]
      exact noBackslash_sStrip hb false
    obtain ⟨pre, hps, hod⟩ :=
      (parse_balanced ((stripWs J).length + 1)).1 (stripWs J) v2 [] hbs hpv
    rw [List.append_nil] at hps
    have hod0 : dwalk (sOut (stripWs J) false) 0 = some 0 := by
      have h0 := hod.2 0 (le_refl 0)
      rw [← hps] at h0
      simpa using h0
    have h1 : sOut (stripWs J) false = (sOut J false).filter (fun c => !isWs c) := by
      rw [stripWs_eq_sStrip hb]
      exact sOut_sStrip J false
    have h2 : dwalk (sOut J false) 0 = some 0 := by
      rw [h1] at hod0
      rwa [dwalk_filter (fun x hx => by
        have hwx : isWs x = true := by simpa using hx
        have : x = ' ' ∨ x = '\n' ∨ x = '\r' ∨ x = '\t' := by simpa [isWs] using hwx
        rcases this with rfl | rfl | rfl | rfl <;> decide)] at hod0
    have h3 : outChars J false nulChar = sOut J false :=
      outChars_eq_sOut J hb nulChar (by decide) false
    exact ppLoop_ok_of_dwalk J false nulChar 0 0 (le_refl 0) (by rw [h3]; exact h2)
  · exact Option.noConfusion hj

/-! ## The output of prettyPrint, collapsed, is the collapsed input -/

theorem ws_ne_quote {c : Char} (h : isWs c = true) : c ≠ '"' := by
  have h2 : c = ' ' ∨ c = '\n' ∨ c = '\r' ∨ c = '\t' := by simpa [isWs] using h
  rcases h2 with rfl | rfl | rfl | rfl <;> decide

theorem sStrip_ws_drop {l : List Char} (h : ∀ x ∈ l, isWs x = true) (r : List Char) :
    sStrip (l ++ r) false = sStrip r false := by
  induction l with
  | nil => rfl
  | cons c l ih =>
    have hw := h c (List.mem_cons_self c l)
    rw [List.cons_append, sStrip_cons_ws (ws_ne_quote hw) hw]
    exact ih (fun x hx => h x (List.mem_cons_of_mem c hx))

theorem replicate_space_ws (n : Nat) :
    ∀ x ∈ List.replicate n ' ', isWs x = true := by
  intro x hx
  rw [List.eq_of_mem_replicate hx]
  decide

theorem nl_replicate_ws (n : Nat) :
    ∀ x ∈ '\n' :: List.replicate n ' ', isWs x = true := by
  intro x hx
  rcases List.mem_cons.mp hx with rfl | hx2
  · decide
  · exact replicate_space_ws n x hx2

/-- Collapsing the whitespace out of what the `prettyPrint` loop emitted
gives back the collapsed remaining input: the loop only copies characters,
drops outside whitespace, and inserts outside whitespace. -/
theorem sStrip_ppLoop :
    ∀ (cs : List Char) (b : Bool) (p : Char) (d : Int) (out : List Char) (st2 : PPState),
      noBackslash cs → p ≠ '\\' → ppLoop cs ⟨d, b, p⟩ = .ok (out, st2) →
      sStrip out b = sStrip cs b := by
  intro cs
  induction cs with
  | nil =>
    intro b p d out st2 _ _ h
    simp only [ppLoop] at h
    obtain ⟨rfl, rfl⟩ := Prod.mk.injEq .. ▸ Except.ok.inj h
    rfl
  | cons c cs ih =>
    intro b p d out st2 hb hp h
    obtain ⟨chunk, st1, rest, he, hl, rfl⟩ := ppLoop_cons_inv h
    have hc : c ≠ '\\' := noBackslash_head hb
    have hbt := noBackslash_tail hb
    by_cases hq : c = '"'
    · subst hq
      have hi : (if ('"' : Char) = '"' ∧ p ≠ '\\' then !b else b) = !b :=
        if_pos ⟨rfl, hp⟩
      cases b with
      | false =>
        rw [ppEmit_in (by rw [hi]; rfl)] at he
        obtain ⟨rfl, rfl⟩ := Prod.mk.injEq .. ▸ Except.ok.inj he
        rw [show (['"'] ++ rest) = '"' :: rest from rfl]
        rw [sStrip_cons_quote, sStrip_cons_quote]
        rw [ih true '"' d rest st2 hbt (by decide) hl]
      | true =>
        rw [ppEmit_out_other (by rw [hi]; rfl) (by decide) (by decide) (by decide)
          (by decide) (by decide)] at he
        obtain ⟨rfl, rfl⟩ := Prod.mk.injEq .. ▸ Except.ok.inj he
        rw [show (['"'] ++ rest) = '"' :: rest from rfl]
        rw [sStrip_cons_in_quote, sStrip_cons_in_quote]
        rw [ih false '"' d rest st2 hbt (by decide) hl]
    · have hi : (if c = '"' ∧ p ≠ '\\' then !b else b) = b :=
        if_neg (fun hx => hq hx.1)
      cases b with
      | true =>
        rw [ppEmit_in (by rw [hi])] at he
        obtain ⟨rfl, rfl⟩ := Prod.mk.injEq .. ▸ Except.ok.inj he
        rw [show ([c] ++ rest) = c :: rest from rfl]
        rw [sStrip_cons_in_other hq, sStrip_cons_in_other hq]
        rw [ih true c d rest st2 hbt hc hl]
      | false =>
        by_cases hop : c = '{' ∨ c = '['
        · by_cases hnn : (d + 1) * 2 < 0
          · rw [ppEmit_out_open_err (by rw [hi]) hop hnn] at he
            cases he
          · rw [ppEmit_out_open (by rw [hi]) hop hnn] at he
            obtain ⟨rfl, rfl⟩ := Prod.mk.injEq .. ▸ Except.ok.inj he
            have hwc : isWs c = false := by rcases hop with rfl | rfl <;> decide
            rw [show ([c, '\n'] ++ List.replicate (((d + 1) * 2).toNat) ' ' ++ rest) =
              c :: (('\n' :: List.replicate (((d + 1) * 2).toNat) ' ') ++ rest) from by simp]
            rw [sStrip_cons_other hq hwc,
              sStrip_ws_drop (nl_replicate_ws _) rest]
            rw [sStrip_cons_other hq hwc]
            rw [ih false c (d + 1) rest st2 hbt hc hl]
        · by_cases hcl : c = '}' ∨ c = ']'
          · by_cases hnn : (d - 1) * 2 < 0
            · rw [ppEmit_out_close_err (by rw [hi]) hcl hnn] at he
              cases he
            · rw [ppEmit_out_close (by rw [hi]) hcl hnn] at he
              obtain ⟨rfl, rfl⟩ := Prod.mk.injEq .. ▸ Except.ok.inj he
              have hwc : isWs c = false := by rcases hcl with rfl | rfl <;> decide
              rw [show (['\n'] ++ List.replicate (((d - 1) * 2).toNat) ' ' ++ [c] ++ rest) =
                ('\n' :: List.replicate (((d - 1) * 2).toNat) ' ') ++ (c :: rest) from by simp]
              rw [sStrip_ws_drop (nl_replicate_ws _) (c :: rest)]
              rw [sStrip_cons_other hq hwc, sStrip_cons_other hq hwc]
              rw [ih false c (d - 1) rest st2 hbt hc hl]
          · by_cases hcm : c = ','
            · subst hcm
              by_cases hnn : d * 2 < 0
              · rw [ppEmit_out_comma_err rfl hnn] at he
                cases he
              · rw [ppEmit_out_comma rfl hnn] at he
                obtain ⟨rfl, rfl⟩ := Prod.mk.injEq .. ▸ Except.ok.inj he
                rw [show ([',', '\n'] ++ List.replicate ((d * 2).toNat) ' ' ++ rest) =
                  ',' :: (('\n' :: List.replicate ((d * 2).toNat) ' ') ++ rest) from by simp]
                rw [sStrip_cons_other hq (by decide),
                  sStrip_ws_drop (nl_replicate_ws _) rest]
                rw [sStrip_cons_other hq (by decide)]
                rw [ih false ',' d rest st2 hbt (by decide) hl]
            · by_cases hco : c = ':'
              · subst hco
                rw [ppEmit_out_colon rfl] at he
                obtain ⟨rfl, rfl⟩ := Prod.mk.injEq .. ▸ Except.ok.inj he
                rw [show ([':', ' '] ++ rest) = ':' :: (' ' :: rest) from rfl]
                rw [sStrip_cons_other hq (by decide),
                  sStrip_cons_ws (by decide) (by decide)]
                rw [sStrip_cons_other hq (by decide)]
                rw [ih false ':' d rest st2 hbt (by decide) hl]
              · by_cases hws : isWs c = true
                · rw [ppEmit_out_ws hws rfl] at he
                  obtain ⟨rfl, rfl⟩ := Prod.mk.injEq .. ▸ Except.ok.inj he
                  rw [show (([] : List Char) ++ rest) = rest from rfl]
                  rw [sStrip_cons_ws hq hws]
                  rw [ih false c d rest st2 hbt hc hl]
                · have hws2 : isWs c = false := Bool.not_eq_true _ ▸ hws
                  rw [ppEmit_out_other (by rw [hi]) hop hcl hcm hco hws2] at he
                  obtain ⟨rfl, rfl⟩ := Prod.mk.injEq .. ▸ Except.ok.inj he
                  rw [show ([c] ++ rest) = c :: rest from rfl]
                  rw [sStrip_cons_other hq hws2, sStrip_cons_other hq hws2]
                  rw [ih false c d rest st2 hbt hc hl]

/-! ## prettyPrint is insensitive to pre-collapsed whitespace -/

theorem exceptMapMap {A B C : Type} (x : Except Unit A) (f : A → B) (g : B → C) :
    (x.map f).map g = x.map (fun a => g (f a)) := by
  cases x <;> rfl

theorem ppLoop_cons_eq {c : Char} {cs : List Char} {st : PPState}
    {chunk : List Char} {st1 : PPState} (he : ppEmit st c = .ok (chunk, st1)) :
    ppLoop (c :: cs) st = (ppLoop cs st1).map (fun y => (chunk ++ y.1, y.2)) := by
  rcases hl : ppLoop cs st1 with e | ⟨out, st2⟩
  · cases e
    simp only [ppLoop, he, hl, exceptOkBind, exceptErrBind, exceptMapOk, exceptMapErr]
    rfl
  · rw [ppLoop_cons_ok he hl]
    rfl

theorem ppLoop_cons_skip {c : Char} {cs : List Char} {st st1 : PPState}
    (he : ppEmit st c = .ok ([], st1)) :
    ppLoop (c :: cs) st = ppLoop cs st1 := by
  rw [ppLoop_cons_eq he]
  rcases hl : ppLoop cs st1 with e | ⟨out, st2⟩ <;> rfl

theorem ppLoop_map_view_cons {c : Char} {cs1 cs2 : List Char} {st1 st2 : PPState}
    {chunk : List Char} {st3 : PPState}
    (he1 : ppEmit st1 c = .ok (chunk, st3)) (he2 : ppEmit st2 c = .ok (chunk, st3))
    (hrec : (ppLoop cs1 st3).map ppView = (ppLoop cs2 st3).map ppView) :
    (ppLoop (c :: cs1) st1).map ppView = (ppLoop (c :: cs2) st2).map ppView := by
  rw [ppLoop_cons_eq he1, ppLoop_cons_eq he2]
  rcases h1 : ppLoop cs1 st3 with ⟨⟩ | ⟨out1, s1⟩ <;>
    rcases h2 : ppLoop cs2 st3 with ⟨⟩ | ⟨out2, s2⟩ <;>
    rw [h1, h2] at hrec <;>
    simp only [Except.map] at hrec ⊢
  all_goals first
    | exact hrec
    | exact Except.noConfusion hrec
    | (have hv := Except.ok.inj hrec
       simp only [ppView, Prod.mk.injEq] at hv
       simp only [Except.ok.injEq, ppView, Prod.mk.injEq]
       exact ⟨by rw [hv.1], hv.2.1, hv.2.2⟩)

theorem ppLoop_map_view_cons_err {c : Char} {cs1 cs2 : List Char} {st1 st2 : PPState}
    (he1 : ppEmit st1 c = .error ()) (he2 : ppEmit st2 c = .error ()) :
    (ppLoop (c :: cs1) st1).map ppView = (ppLoop (c :: cs2) st2).map ppView := by
  rw [ppLoop_cons_err he1, ppLoop_cons_err he2]

/-- Running the `prettyPrint` loop on whitespace-collapsed input produces
the same output, indent and in-string flag as running it on the raw input
(the final `prevChar` may differ, and is never consulted afterwards on
backslash-free text). -/
theorem ppLoop_sStrip_view :
    ∀ (cs : List Char) (b : Bool) (d : Int) (p q : Char),
      noBackslash cs → p ≠ '\\' → q ≠ '\\' →
      (ppLoop (sStrip cs b) ⟨d, b, q⟩).map ppView =
        (ppLoop cs ⟨d, b, p⟩).map ppView := by
  intro cs
  induction cs with
  | nil => intro b d p q _ _ _; rfl
  | cons c cs ih =>
    intro b d p q hb hp hq2
    have hc : c ≠ '\\' := noBackslash_head hb
    have hbt := noBackslash_tail hb
    by_cases hq : c = '"'
    · subst hq
      cases b with
      | false =>
        rw [sStrip_cons_quote]
        exact ppLoop_map_view_cons
          (ppEmit_in (by rw [if_pos ⟨rfl, hq2⟩]; rfl))
          (ppEmit_in (by rw [if_pos ⟨rfl, hp⟩]; rfl))
          (ih true d '"' '"' hbt (by decide) (by decide))
      | true =>
        rw [sStrip_cons_in_quote]
        exact ppLoop_map_view_cons
          (ppEmit_out_other (by rw [if_pos ⟨rfl, hq2⟩]; rfl) (by decide) (by decide)
            (by decide) (by decide) (by decide))
          (ppEmit_out_other (by rw [if_pos ⟨rfl, hp⟩]; rfl) (by decide) (by decide)
            (by decide) (by decide) (by decide))
          (ih false d '"' '"' hbt (by decide) (by decide))
    · cases b with
      | true =>
        rw [sStrip_cons_in_other hq]
        exact ppLoop_map_view_cons
          (ppEmit_in (by rw [if_neg (fun hx => hq hx.1)]))
          (ppEmit_in (by rw [if_neg (fun hx => hq hx.1)]))
          (ih true d c c hbt hc hc)
      | false =>
        by_cases hop : c = '{' ∨ c = '['
        · have hwc : isWs c = false := by rcases hop with rfl | rfl <;> decide
          rw [sStrip_cons_other hq hwc]
          by_cases hnn : (d + 1) * 2 < 0
          · exact ppLoop_map_view_cons_err
              (ppEmit_out_open_err (by rw [if_neg (fun hx => hq hx.1)]) hop hnn)
              (ppEmit_out_open_err (by rw [if_neg (fun hx => hq hx.1)]) hop hnn)
          · exact ppLoop_map_view_cons
              (ppEmit_out_open (by rw [if_neg (fun hx => hq hx.1)]) hop hnn)
              (ppEmit_out_open (by rw [if_neg (fun hx => hq hx.1)]) hop hnn)
              (ih false (d + 1) c c hbt hc hc)
        · by_cases hcl : c = '}' ∨ c = ']'
          · have hwc : isWs c = false := by rcases hcl with rfl | rfl <;> decide
            rw [sStrip_cons_other hq hwc]
            by_cases hnn : (d - 1) * 2 < 0
            · exact ppLoop_map_view_cons_err
                (ppEmit_out_close_err (by rw [if_neg (fun hx => hq hx.1)]) hcl hnn)
                (ppEmit_out_close_err (by rw [if_neg (fun hx => hq hx.1)]) hcl hnn)
            · exact ppLoop_map_view_cons
                (ppEmit_out_close (by rw [if_neg (fun hx => hq hx.1)]) hcl hnn)
                (ppEmit_out_close (by rw [if_neg (fun hx => hq hx.1)]) hcl hnn)
                (ih false (d - 1) c c hbt hc hc)
          · by_cases hcm : c = ','
            · subst hcm
              rw [sStrip_cons_other hq (by decide)]
              by_cases hnn : d * 2 < 0
              · exact ppLoop_map_view_cons_err
                  (ppEmit_out_comma_err rfl hnn) (ppEmit_out_comma_err rfl hnn)
              · exact ppLoop_map_view_cons
                  (ppEmit_out_comma rfl hnn) (ppEmit_out_comma rfl hnn)
                  (ih false d ',' ',' hbt (by decide) (by decide))
            · by_cases hco : c = ':'
              · subst hco
                rw [sStrip_cons_other hq (by decide)]
                exact ppLoop_map_view_cons
                  (ppEmit_out_colon rfl) (ppEmit_out_colon rfl)
                  (ih false d ':' ':' hbt (by decide) (by decide))
              · by_cases hws : isWs c = true
                · rw [sStrip_cons_ws hq hws]
                  rw [ppLoop_cons_skip (ppEmit_out_ws hws rfl)]
                  exact ih false d c q hbt hc hq2
                · have hws2 : isWs c = false := Bool.not_eq_true _ ▸ hws
                  rw [sStrip_cons_other hq hws2]
                  exact ppLoop_map_view_cons
                    (ppEmit_out_other (by rw [if_neg (fun hx => hq hx.1)])
                      hop hcl hcm hco hws2)
                    (ppEmit_out_other (by rw [if_neg (fun hx => hq hx.1)])
                      hop hcl hcm hco hws2)
                    (ih false d c c hbt hc hc)

/-! ## Characters of the prettyPrint output -/

theorem spacesOf_ok {n : Int} {pad : List Char} (h : spacesOf n = .ok pad) :
    ∀ x ∈ pad, x = ' ' := by
  unfold spacesOf at h
  split at h
  · cases h
  · intro x hx
    cases Except.ok.inj h
    exact List.eq_of_mem_replicate hx

/-- Every character the loop body appends is the current input character
or inserted whitespace. -/
theorem ppEmit_chunk_chars {st : PPState} {c : Char} {chunk : List Char}
    {st1 : PPState} (he : ppEmit st c = .ok (chunk, st1)) :
    ∀ x ∈ chunk, x = c ∨ isWs x = true := by
  obtain ⟨d, b, p⟩ := st
  by_cases hi : (if c = '"' ∧ p ≠ '\\' then !b else b) = true
  · rw [ppEmit_in hi] at he
    obtain ⟨rfl, rfl⟩ := Prod.mk.injEq .. ▸ Except.ok.inj he
    intro x hx
    rcases List.mem_cons.mp hx with rfl | hx2
    · exact Or.inl rfl
    · cases hx2
  · have hi2 : (if c = '"' ∧ p ≠ '\\' then !b else b) = false :=
      Bool.not_eq_true _ ▸ hi
    by_cases hop : c = '{' ∨ c = '['
    · by_cases hnn : (d + 1) * 2 < 0
      · rw [ppEmit_out_open_err hi2 hop hnn] at he
        cases he
      · rw [ppEmit_out_open hi2 hop hnn] at he
        obtain ⟨rfl, rfl⟩ := Prod.mk.injEq .. ▸ Except.ok.inj he
        intro x hx
        rcases List.mem_append.mp hx with hx1 | hx2
        · rcases List.mem_cons.mp hx1 with rfl | hx3
          · exact Or.inl rfl
          · rcases List.mem_cons.mp hx3 with rfl | hx4
            · exact Or.inr (by decide)
            · cases hx4
        · rw [List.eq_of_mem_replicate hx2]
          exact Or.inr (by decide)
    · by_cases hcl : c = '}' ∨ c = ']'
      · by_cases hnn : (d - 1) * 2 < 0
        · rw [ppEmit_out_close_err hi2 hcl hnn] at he
          cases he
        · rw [ppEmit_out_close hi2 hcl hnn] at he
          obtain ⟨rfl, rfl⟩ := Prod.mk.injEq .. ▸ Except.ok.inj he
          intro x hx
          rcases List.mem_append.mp hx with hx1 | hx2
          · rcases List.mem_append.mp hx1 with hx3 | hx4
            · rcases List.mem_cons.mp hx3 with rfl | hx5
              · exact Or.inr (by decide)
              · cases hx5
            · rw [List.eq_of_mem_replicate hx4]
              exact Or.inr (by decide)
          · rcases List.mem_cons.mp hx2 with rfl | hx3
            · exact Or.inl rfl
            · cases hx3
      · by_cases hcm : c = ','
        · subst hcm
          have hb2 : b = false := by
            by_cases hcq : (',' : Char) = '"' ∧ p ≠ '\\'
            · cases hcq.1
            · rw [if_neg hcq] at hi2
              exact hi2
          by_cases hnn : d * 2 < 0
          · rw [ppEmit_out_comma_err hb2 hnn] at he
            cases he
          · rw [ppEmit_out_comma hb2 hnn] at he
            obtain ⟨rfl, rfl⟩ := Prod.mk.injEq .. ▸ Except.ok.inj he
            intro x hx
            rcases List.mem_append.mp hx with hx1 | hx2
            · rcases List.mem_cons.mp hx1 with rfl | hx3
              · exact Or.inl rfl
              · rcases List.mem_cons.mp hx3 with rfl | hx4
                · exact Or.inr (by decide)
                · cases hx4
            · rw [List.eq_of_mem_replicate hx2]
              exact Or.inr (by decide)
        · by_cases hco : c = ':'
          · subst hco
            have hb2 : b = false := by
              by_cases hcq : (':' : Char) = '"' ∧ p ≠ '\\'
              · cases hcq.1
              · rw [if_neg hcq] at hi2
                exact hi2
            rw [ppEmit_out_colon hb2] at he
            obtain ⟨rfl, rfl⟩ := Prod.mk.injEq .. ▸ Except.ok.inj he
            intro x hx
            rcases List.mem_cons.mp hx with rfl | hx2
            · exact Or.inl rfl
            · rcases List.mem_cons.mp hx2 with rfl | hx3
              · exact Or.inr (by decide)
              · cases hx3
          · by_cases hws : isWs c = true
            · have hb2 : b = false := by
                by_cases hcq : c = '"' ∧ p ≠ '\\'
                · exact absurd (hcq.1 ▸ hws) (by decide)
                · rw [if_neg hcq] at hi2
                  exact hi2
              rw [ppEmit_out_ws hws hb2] at he
              obtain ⟨rfl, rfl⟩ := Prod.mk.injEq .. ▸ Except.ok.inj he
              intro x hx
              cases hx
            · have hws2 : isWs c = false := Bool.not_eq_true _ ▸ hws
              rw [ppEmit_out_other hi2 hop hcl hcm hco hws2] at he
              obtain ⟨rfl, rfl⟩ := Prod.mk.injEq .. ▸ Except.ok.inj he
              intro x hx
              rcases List.mem_cons.mp hx with rfl | hx2
              · exact Or.inl rfl
              · cases hx2

theorem ppLoop_chars :
    ∀ (cs : List Char) (st : PPState) (out : List Char) (st2 : PPState),
      ppLoop cs st = .ok (out, st2) → ∀ x ∈ out, x ∈ cs ∨ isWs x = true := by
  intro cs
  induction cs with
  | nil =>
    intro st out st2 h x hx
    simp only [ppLoop] at h
    obtain ⟨rfl, rfl⟩ := Prod.mk.injEq .. ▸ Except.ok.inj h
    cases hx
  | cons c cs ih =>
    intro st out st2 h x hx
    obtain ⟨chunk, st1, rest, he, hl, rfl⟩ := ppLoop_cons_inv h
    rcases List.mem_append.mp hx with hx1 | hx2
    · rcases ppEmit_chunk_chars he x hx1 with rfl | hw
      · exact Or.inl (List.mem_cons_self _ _)
      · exact Or.inr hw
    · rcases ih st1 rest st2 hl x hx2 with hm | hw
      · exact Or.inl (List.mem_cons_of_mem c hm)
      · exact Or.inr hw

theorem ppLoop_noBS {cs : List Char} {st : PPState} {out : List Char}
    {st2 : PPState} (hb : noBackslash cs) (h : ppLoop cs st = .ok (out, st2)) :
    noBackslash out := by
  intro hm
  rcases ppLoop_chars cs st out st2 h '\\' hm with hm2 | hw
  · exact hb hm2
  · exact absurd hw (by decide)

/-! ## C1: parse preservation -/

/-- C1 fails on the code: on the valid compact JSON text
`["\\","x y"]` the one-character lookback believes the text after the
escaped backslash is inside a string, so the space of `"x y"` is treated
as outside-string whitespace and dropped, and the parsed values differ. -/
theorem prettyPrint_parse_changed :
    parseJson cexParse = some (Json.arr [Json.str ['\\'], Json.str ['x', ' ', 'y']]) ∧
    prettyPrint cexParse = .ok cexParseOut ∧
    parseJson cexParseOut = some (Json.arr [Json.str ['\\'], Json.str ['x', 'y']]) ∧
    Json.arr [Json.str ['\\'], Json.str ['x', ' ', 'y']] ≠
      Json.arr [Json.str ['\\'], Json.str ['x', 'y']] := by
  refine ⟨rfl, rfl, rfl, ?_⟩
  intro h
  simp only [Json.arr.injEq, List.cons.injEq, Json.str.injEq] at h
  exact absurd h.2.1 (by decide)

/-- C1 amended: for valid compact JSON text containing no backslash
character, parsing the `prettyPrint` output yields the same value as
parsing the input, and the output differs from the input only by inserted
whitespace (collapsing the inserted whitespace recovers the input). -/
theorem prettyPrint_preserves_parse :
    ∀ (J : List Char) (v : Json), noBackslash J → stripWs J = J →
      parseJson J = some v →
      ∃ P, prettyPrint J = .ok P ∧ parseJson P = some v ∧ stripWs P = J := by
  intro J v hb hcompact hj
  obtain ⟨out, q, r, hrun⟩ := prettyRun_ok_of_valid hb hj
  have hpp : prettyPrint J = .ok out := by
    rw [prettyPrint, hrun]
    rfl
  have hnbout : noBackslash out := ppLoop_noBS hb hrun
  have hso : stripWs out = J := by
    rw [stripWs_eq_sStrip hnbout]
    rw [sStrip_ppLoop J false nulChar 0 out ⟨0, q, r⟩ hb (by decide) hrun]
    rw [← stripWs_eq_sStrip hb, hcompact]
  refine ⟨out, hpp, ?_, hso⟩
  have hpj : parseJson out = parseJson J := by
    rw [show parseJson out =
        (match parseVal ((stripWs out).length + 1) (stripWs out) with
          | some (v, []) => some v
          | _ => none) from rfl]
    rw [show parseJson J =
        (match parseVal ((stripWs J).length + 1) (stripWs J) with
          | some (v, []) => some v
          | _ => none) from rfl]
    rw [hso, hcompact]
  rw [hpj, hj]

/-- Witness for the amended C1 at the concrete input `[1]`. -/
theorem prettyPrint_preserves_parse_witness :
    noBackslash exValid ∧ stripWs exValid = exValid ∧
    parseJson exValid = some (Json.arr [Json.num ['1']]) ∧
    ∃ P, prettyPrint exValid = .ok P ∧
      parseJson P = some (Json.arr [Json.num ['1']]) ∧ stripWs P = exValid :=
  ⟨by decide, rfl, rfl,
    prettyPrint_preserves_parse exValid (Json.arr [Json.num ['1']])
      (by decide) rfl rfl⟩

/-! ## C8: idempotence under normalization -/

/-- C8 fails on the code: on the valid JSON text `["\\", 2]` the
mis-tracked scanner copies the real whitespace after the comma into the
output; collapsing that whitespace and reformatting again produces a
strictly different string. -/
theorem prettyPrint_not_idempotent :
    parseJson cexIdem = some (Json.arr [Json.str ['\\'], Json.num ['2']]) ∧
    prettyPrint cexIdem = .ok cexIdemOut ∧
    prettyPrint (stripWs cexIdemOut) = .ok cexIdemOut2 ∧
    cexIdemOut2 ≠ cexIdemOut := by
  exact ⟨rfl, rfl, rfl, by decide⟩

/-- C8 amended: for valid JSON text containing no backslash character,
re-running `prettyPrint` on its whitespace-collapsed own output reproduces
that output byte for byte. -/
theorem prettyPrint_idempotent_noBackslash :
    ∀ (J : List Char) (v : Json), noBackslash J → parseJson J = some v →
      ∃ P, prettyPrint J = .ok P ∧ prettyPrint (stripWs P) = .ok P := by
  intro J v hb hj
  obtain ⟨out, q, r, hrun⟩ := prettyRun_ok_of_valid hb hj
  have hpp : prettyPrint J = .ok out := by
    rw [prettyPrint, hrun]
    rfl
  have hnbout : noBackslash out := ppLoop_noBS hb hrun
  have hso : stripWs out = sStrip J false := by
    rw [stripWs_eq_sStrip hnbout]
    exact sStrip_ppLoop J false nulChar 0 out ⟨0, q, r⟩ hb (by decide) hrun
  refine ⟨out, hpp, ?_⟩
  have hview := ppLoop_sStrip_view J false 0 nulChar nulChar hb (by decide) (by decide)
  rw [show ppLoop J ⟨0, false, nulChar⟩ = prettyRun J from rfl, hrun] at hview
  rcases hsl : ppLoop (sStrip J false) ⟨0, false, nulChar⟩ with ⟨⟩ | ⟨out2, st2⟩
  · rw [hsl] at hview
    simp only [Except.map] at hview
    exact Except.noConfusion hview
  · rw [hsl] at hview
    simp only [Except.map] at hview
    have hv := Except.ok.inj hview
    have hout : out2 = out := congrArg Prod.fst hv
    calc prettyPrint (stripWs out)
        = (ppLoop (sStrip J false) ⟨0, false, nulChar⟩).map Prod.fst := by
          rw [hso]
          rfl
      _ = .ok out := by
          rw [hsl, hout]
          rfl

/-- Witness for the amended C8 at the concrete input `[1]`. -/
theorem prettyPrint_idempotent_witness :
    noBackslash exValid ∧ parseJson exValid = some (Json.arr [Json.num ['1']]) ∧
    ∃ P, prettyPrint exValid = .ok P ∧ prettyPrint (stripWs P) = .ok P :=
  ⟨by decide, rfl,
    prettyPrint_idempotent_noBackslash exValid (Json.arr [Json.num ['1']])
      (by decide) rfl⟩

/-! ## C6: final indent on balanced input -/

theorem dwalk_of_brkStack :
    ∀ (l st res : List Char), brkStack l st = some res →
      dwalk l (st.length : Int) = some (res.length : Int) := by
  intro l
  induction l with
  | nil =>
    intro st res h
    cases Option.some.inj h
    rfl
  | cons c l ih =>
    intro st res h
    by_cases hop : c = '{' ∨ c = '['
    · rw [dwalk_cons_open hop]
      simp only [brkStack, hop, if_true] at h
      have := ih (c :: st) res h
      simpa using this
    · by_cases hcb : c = '}'
      · subst hcb
        simp only [brkStack, hop, if_false, if_true] at h
        rcases st with _ | ⟨top, st2⟩
        · cases h
        · by_cases htop : top = '{'
          · subst htop
            rw [dwalk_cons_close (Or.inl rfl)]
            rw [if_pos (by simp)]
            have := ih st2 res h
            rw [show ((('{' :: st2).length : Int) - 1) = (st2.length : Int) from by
              simp]
            exact this
          · exfalso
            rcases top with ⟨⟩
            revert h
            split
            · rename_i heq
              intro h2
              injection heq with h3 h4
              exact htop (by rw [← h3])
            · intro h2
              cases h2
      · by_cases hcB : c = ']'
        · subst hcB
          simp only [brkStack, hop, if_false, hcb, if_true] at h
          rcases st with _ | ⟨top, st2⟩
          · cases h
          · by_cases htop : top = '['
            · subst htop
              rw [dwalk_cons_close (Or.inr rfl)]
              rw [if_pos (by simp)]
              have := ih st2 res h
              rw [show ((('[' :: st2).length : Int) - 1) = (st2.length : Int) from by
                simp]
              exact this
            · exfalso
              revert h
              split
              · rename_i heq
                intro h2
                injection heq with h3 h4
                exact htop (by rw [← h3])
              · intro h2
                cases h2
        · have hnb : ¬ isBracket c := fun hx => by
            rcases hx with hx | hx | hx | hx
            · exact hop (Or.inl hx)
            · exact hop (Or.inr hx)
            · exact hcb hx
            · exact hcB hx
          rw [dwalk_cons_other hnb]
          simp only [brkStack, hop, if_false, hcb, hcB] at h
          exact ih st res h

/-- C6 fails on the code: the braces of the four-character text
`{"}"` are balanced, the scan finishes normally, and the indent counter
finishes at 1, because the closing brace lies inside a string literal. -/
theorem indent_nonzero_on_balanced :
    balancedBrackets cexBalanced ∧
    prettyRun cexBalanced =
      .ok (['{', '\n', ' ', ' ', '"', '}', '"'], ⟨1, false, '"'⟩) ∧
    (1 : Int) ≠ 0 :=
  ⟨by decide, rfl, by decide⟩

/-- C6 amended: when the braces and brackets lying outside string
literals (as the scanner sees them) are balanced, the scan finishes
normally with the indent counter at exactly 0. -/
theorem indent_zero_of_outside_balanced :
    ∀ J : List Char, balancedBrackets (outChars J false nulChar) →
      ∃ out q r, prettyRun J = .ok (out, ⟨0, q, r⟩) := by
  intro J hbal
  have hd := dwalk_of_brkStack (outChars J false nulChar) [] [] hbal
  exact ppLoop_ok_of_dwalk J false nulChar 0 0 (le_refl 0) hd

/-- Witness for the amended C6 at the concrete input `[1]`. -/
theorem indent_zero_witness :
    balancedBrackets (outChars exValid false nulChar) ∧
    ∃ out q r, prettyRun exValid = .ok (out, ⟨0, q, r⟩) :=
  ⟨by decide, indent_zero_of_outside_balanced exValid (by decide)⟩

/-! ## C5: output size -/

/-- Each loop iteration appends at most `2 * indent + 4` characters, the
indent grows by at most one per character, so the output of `n` characters
from indent `d` is at most `n * (2 d + 2 n + 4)` characters long. -/
theorem ppLoop_length_bound :
    ∀ (cs : List Char) (d : Int) (b : Bool) (p : Char) (out : List Char) (st2 : PPState),
      0 ≤ d → ppLoop cs ⟨d, b, p⟩ = .ok (out, st2) →
      out.length ≤ cs.length * (2 * d.toNat + 2 * cs.length + 4) := by
  intro cs
  induction cs with
  | nil =>
    intro d b p out st2 hd h
    simp only [ppLoop] at h
    obtain ⟨rfl, rfl⟩ := Prod.mk.injEq .. ▸ Except.ok.inj h
    simp
  | cons c cs ih =>
    intro d b p out st2 hd h
    obtain ⟨chunk, st1, rest, he, hl, rfl⟩ := ppLoop_cons_inv h
    have key : chunk.length ≤ 2 * d.toNat + 4 ∧ 0 ≤ st1.indent ∧
        st1.indent.toNat ≤ d.toNat + 1 := by
      by_cases hi : (if c = '"' ∧ p ≠ '\\' then !b else b) = true
      · rw [ppEmit_in hi] at he
        obtain ⟨rfl, rfl⟩ := Prod.mk.injEq .. ▸ Except.ok.inj he
        exact ⟨by show 1 ≤ 2 * d.toNat + 4; omega, hd,
          by show d.toNat ≤ d.toNat + 1; omega⟩
      · have hi2 : (if c = '"' ∧ p ≠ '\\' then !b else b) = false :=
          Bool.not_eq_true _ ▸ hi
        by_cases hop : c = '{' ∨ c = '['
        · by_cases hnn : (d + 1) * 2 < 0
          · rw [ppEmit_out_open_err hi2 hop hnn] at he
            cases he
          · rw [ppEmit_out_open hi2 hop hnn] at he
            obtain ⟨rfl, rfl⟩ := Prod.mk.injEq .. ▸ Except.ok.inj he
            refine ⟨?_, by show (0 : Int) ≤ d + 1; omega,
              by show (d + 1).toNat ≤ d.toNat + 1; omega⟩
            simp only [List.length_append, List.length_cons, List.length_nil,
              List.length_replicate]
            omega
        · by_cases hcl : c = '}' ∨ c = ']'
          · by_cases hnn : (d - 1) * 2 < 0
            · rw [ppEmit_out_close_err hi2 hcl hnn] at he
              cases he
            · rw [ppEmit_out_close hi2 hcl hnn] at he
              obtain ⟨rfl, rfl⟩ := Prod.mk.injEq .. ▸ Except.ok.inj he
              refine ⟨?_, by show (0 : Int) ≤ d - 1; omega,
                by show (d - 1).toNat ≤ d.toNat + 1; omega⟩
              simp only [List.length_append, List.length_cons, List.length_nil,
                List.length_replicate]
              omega
          · by_cases hcm : c = ','
            · subst hcm
              have hb2 : b = false := by
                by_cases hcq : (',' : Char) = '"' ∧ p ≠ '\\'
                · cases hcq.1
                · rw [if_neg hcq] at hi2
                  exact hi2
              by_cases hnn : d * 2 < 0
              · rw [ppEmit_out_comma_err hb2 hnn] at he
                cases he
              · rw [ppEmit_out_comma hb2 hnn] at he
                obtain ⟨rfl, rfl⟩ := Prod.mk.injEq .. ▸ Except.ok.inj he
                refine ⟨?_, hd, by show d.toNat ≤ d.toNat + 1; omega⟩
                simp only [List.length_append, List.length_cons, List.length_nil,
                  List.length_replicate]
                omega
            · by_cases hco : c = ':'
              · subst hco
                have hb2 : b = false := by
                  by_cases hcq : (':' : Char) = '"' ∧ p ≠ '\\'
                  · cases hcq.1
                  · rw [if_neg hcq] at hi2
                    exact hi2
                rw [ppEmit_out_colon hb2] at he
                obtain ⟨rfl, rfl⟩ := Prod.mk.injEq .. ▸ Except.ok.inj he
                exact ⟨by show 2 ≤ 2 * d.toNat + 4; omega, hd,
                  by show d.toNat ≤ d.toNat + 1; omega⟩
              · by_cases hws : isWs c = true
                · have hb2 : b = false := by
                    by_cases hcq : c = '"' ∧ p ≠ '\\'
                    · exact absurd (hcq.1 ▸ hws) (by decide)
                    · rw [if_neg hcq] at hi2
                      exact hi2
                  rw [ppEmit_out_ws hws hb2] at he
                  obtain ⟨rfl, rfl⟩ := Prod.mk.injEq .. ▸ Except.ok.inj he
                  exact ⟨by show 0 ≤ 2 * d.toNat + 4; omega, hd,
                    by show d.toNat ≤ d.toNat + 1; omega⟩
                · have hws2 : isWs c = false := Bool.not_eq_true _ ▸ hws
                  rw [ppEmit_out_other hi2 hop hcl hcm hco hws2] at he
                  obtain ⟨rfl, rfl⟩ := Prod.mk.injEq .. ▸ Except.ok.inj he
                  exact ⟨by show 1 ≤ 2 * d.toNat + 4; omega, hd,
                    by show d.toNat ≤ d.toNat + 1; omega⟩
    have hrest : rest.length ≤
        cs.length * (2 * st1.indent.toNat + 2 * cs.length + 4) := by
      have hst : st1 = ⟨st1.indent, st1.inString, st1.prevChar⟩ := rfl
      exact ih st1.indent st1.inString st1.prevChar rest st2 key.2.1 (hst ▸ hl)
    have hrest2 : rest.length ≤
        cs.length * (2 * (d.toNat + 1) + 2 * cs.length + 4) :=
      le_trans hrest (Nat.mul_le_mul_left _ (by omega))
    have hlen : (chunk ++ rest).length = chunk.length + rest.length := by simp
    rw [hlen, List.length_cons]
    have hexp : (cs.length + 1) * (2 * d.toNat + 2 * (cs.length + 1) + 4) =
        cs.length * (2 * (d.toNat + 1) + 2 * cs.length + 4) +
          (2 * d.toNat + 2 * cs.length + 6) := by ring
    rw [hexp]
    have h1 := key.1
    omega

/-- C5 amended: the output is bounded by a fixed quadratic function of the
input length (each character contributes at most the current indentation,
which is itself bounded by the input length). -/
theorem prettyPrint_quadratic :
    ∀ s P : List Char, prettyPrint s = .ok P →
      P.length ≤ s.length * (2 * s.length + 4) := by
  intro s P h
  rcases hr : prettyRun s with ⟨⟩ | ⟨out, st2⟩
  · rw [prettyPrint, hr] at h
    simp only [Except.map] at h
    exact Except.noConfusion h
  · rw [prettyPrint, hr] at h
    simp only [Except.map] at h
    obtain rfl := Except.ok.inj h
    have := ppLoop_length_bound s 0 false nulChar out st2 (le_refl 0) hr
    simpa using this

/-- Witness for the amended C5 at the spec's scenario 1 input. -/
theorem prettyPrint_quadratic_witness :
    ∃ P, prettyPrint exValid = .ok P ∧ P.length ≤ exValid.length * (2 * exValid.length + 4) := by
  refine ⟨['[', '\n', ' ', ' ', '1', '\n', ']'], rfl, ?_⟩
  exact prettyPrint_quadratic exValid ['[', '\n', ' ', ' ', '1', '\n', ']'] rfl

/-- On a run of `k` opening brackets the output length is exactly
quadratic in `k`. -/
theorem ppLoop_brackets :
    ∀ (k d : Nat) (p : Char),
      ∃ out st2,
        ppLoop (List.replicate k '[') ⟨(d : Int), false, p⟩ = .ok (out, st2) ∧
        out.length = k * k + 3 * k + 2 * k * d := by
  intro k
  induction k with
  | zero => intro d p; exact ⟨[], ⟨(d : Int), false, p⟩, rfl, by simp⟩
  | succ k ih =>
    intro d p
    obtain ⟨out, st2, hl, hlen⟩ := ih (d + 1) '['
    have hcast : ((d : Int) + 1) = ((d + 1 : Nat) : Int) := by push_cast; ring
    rw [← hcast] at hl
    have he := ppEmit_out_open (c := '[') (p := p) (b := false) (d := (d : Int))
      (by rw [if_neg (fun hx => absurd hx.1 (by decide))]) (Or.inr rfl) (by omega)
    have hok := ppLoop_cons_ok he hl
    refine ⟨['[', '\n'] ++ List.replicate (((d : Int) + 1) * 2).toNat ' ' ++ out,
      st2, ?_, ?_⟩
    · rw [show List.replicate (k + 1) '[' = '[' :: List.replicate k '[' from rfl]
      exact hok
    · simp only [List.length_append, List.length_cons, List.length_replicate,
        List.length_nil, hlen]
      have h2 : (((d : Int) + 1) * 2).toNat = 2 * d + 2 := by omega
      rw [h2]
      ring

/-- C5 fails on the code: there is no fixed linear bound on the output
length, since `k` opening brackets produce `k * k + 3 * k` characters. -/
theorem prettyPrint_not_linear :
    ¬ ∃ a b : Nat, ∀ s P : List Char, prettyPrint s = .ok P →
        P.length ≤ a * s.length + b := by
  rintro ⟨a, b, hab⟩
  obtain ⟨out, st2, hl, hlen⟩ := ppLoop_brackets (a + b + 1) 0 nulChar
  have hpp : prettyPrint (List.replicate (a + b + 1) '[') = .ok out := by
    rw [prettyPrint]
    rw [show prettyRun (List.replicate (a + b + 1) '[') =
      ppLoop (List.replicate (a + b + 1) '[') ⟨((0 : Nat) : Int), false, nulChar⟩ from rfl]
    rw [hl]
    rfl
  have h2 := hab _ _ hpp
  rw [hlen, List.length_replicate] at h2
  have hexp : (a + b + 1) * (a + b + 1) + 3 * (a + b + 1) + 2 * (a + b + 1) * 0 =
      a * (a + b + 1) + b * (a + b + 1) + (a + b + 1) + 3 * (a + b + 1) := by ring
  rw [hexp] at h2
  have hbk : b ≤ b * (a + b + 1) := Nat.le_mul_of_pos_right b (by omega)
  omega

end Innergy
